import Mathlib

/-!
Verification of the warehouse grid pathfinding core: the grid builder
(`create_grid` / `add_obstacle` / `is_free` from `setGrid.py` and `grid.py`)
and the A* pathfinder (`manhattan` / `nearest_aisle` / `a_star_search` from
`search.py`).

The Python code is shallowly embedded: Python lists become `List`,
Python list indexing (including the negative-index wrap-around and the
IndexError on out-of-range access) is modelled by `pyNth` / `pySet`
returning `Option`, Python dicts keyed by coordinate tuples become
association lists, and the `heapq` frontier becomes a list from which
`popMin` removes the entry that is minimal in the lexicographic order on
`(f, g, x, y)` — exactly the order Python uses to compare the pushed
`(f, g, (x, y))` tuples, and `heapq.heappop` always returns the minimal
element of the heap.  The unbounded `while` loops take an explicit fuel
argument; fuel exhaustion (like a raised Python exception) yields `none`.
The ghost fields `pops` and `pushes` record the chronological sequence of
frontier pops and pushes; they never influence control flow.
The wall-clock `runtime` component of the Python result is not modelled.
-/

namespace Warehouse

/-- Position: a Python coordinate tuple (x, y) of (unbounded) integers. -/
abbrev Pos := Int × Int

/-- Frontier entry: the tuple (f, g, (x, y)) pushed on the Python heap. -/
abbrev Entry := Nat × Nat × Pos

/-- Grid: the Python list of rows, each row a list of int cells (0 or 1). -/
abbrev Grid := List (List Nat)

/-- Python list read l[i]: non-negative indices in range read directly,
negative indices with -len(l) <= i < 0 wrap around, anything else raises
IndexError (modelled as `none`). -/
def pyNth (l : List α) (i : Int) : Option α :=
  if 0 ≤ i ∧ i < (l.length : Int) then l[i.toNat]?
  else if -(l.length : Int) ≤ i ∧ i < 0 then l[l.length - (-i).toNat]?
  else none

/-- Python list write l[i] = v, with the same index semantics as `pyNth`. -/
def pySet (l : List α) (i : Int) (v : α) : Option (List α) :=
  if 0 ≤ i ∧ i < (l.length : Int) then some (l.set i.toNat v)
  else if -(l.length : Int) ≤ i ∧ i < 0 then some (l.set (l.length - (-i).toNat) v)
  else none

/-- The Python index is representable: a value is returned, and it is an
element of the list. -/
theorem pyNth_total (l : List α) (i : Int)
    (h0 : -(l.length : Int) ≤ i) (h1 : i < (l.length : Int)) :
    ∃ a, pyNth l i = some a ∧ a ∈ l := by
  unfold pyNth
  by_cases hs : 0 ≤ i
  · rw [if_pos ⟨hs, h1⟩]
    have hlt : i.toNat < l.length := by omega
    exact ⟨l[i.toNat], List.getElem?_eq_getElem hlt, List.getElem_mem _⟩
  · rw [if_neg (by omega), if_pos ⟨h0, by omega⟩]
    have hlt : l.length - (-i).toNat < l.length := by omega
    exact ⟨_, List.getElem?_eq_getElem hlt, List.getElem_mem _⟩

theorem pyNth_in_range (l : List α) (i : Int) (h0 : 0 ≤ i)
    (h1 : i < (l.length : Int)) : pyNth l i = l[i.toNat]? := by
  unfold pyNth
  rw [if_pos ⟨h0, h1⟩]

theorem pyNth_oor (l : List α) (i : Int)
    (h : (l.length : Int) ≤ i ∨ i < -(l.length : Int)) : pyNth l i = none := by
  unfold pyNth
  rw [if_neg (by omega), if_neg (by omega)]

theorem pySet_in_range (l : List α) (i : Int) (v : α) (h0 : 0 ≤ i)
    (h1 : i < (l.length : Int)) : pySet l i v = some (l.set i.toNat v) := by
  unfold pySet
  rw [if_pos ⟨h0, h1⟩]

theorem pySet_oor (l : List α) (i : Int) (v : α)
    (h : (l.length : Int) ≤ i ∨ i < -(l.length : Int)) : pySet l i v = none := by
  unfold pySet
  rw [if_neg (by omega), if_neg (by omega)]

theorem pySet_spec (l l' : List α) (i : Int) (v : α)
    (h : pySet l i v = some l') : ∃ j, j < l.length ∧ l' = l.set j v := by
  unfold pySet at h
  split at h
  · cases h
    exact ⟨i.toNat, by omega, rfl⟩
  · split at h
    · cases h
      refine ⟨l.length - (-i).toNat, by omega, rfl⟩
    · cases h

/-- Python expression grid[y][x] (row index first, as in search.py). -/
def cellAt (grid : Grid) (x y : Int) : Option Nat :=
  (pyNth grid y).bind (fun row => pyNth row x)

/-- Lookup in a Python dict keyed by coordinate tuples. -/
def lookupPos (d : List (Pos × α)) (k : Pos) : Option α :=
  match d with
  | [] => none
  | (k', v) :: rest => if k' = k then some v else lookupPos rest k

/-- Python dict write d[k] = v: update the existing binding in place,
or append a new binding. -/
def insertPos (d : List (Pos × α)) (k : Pos) (v : α) : List (Pos × α) :=
  match d with
  | [] => [(k, v)]
  | (k', v') :: rest =>
      if k' = k then (k', v) :: rest else (k', v') :: insertPos rest k v

/-! ## search.py -/

/-- manhattan (search.py:21-28): abs(a[0]-b[0]) + abs(a[1]-b[1]). -/
def manhattan (a b : Pos) : Nat :=
  (a.1 - b.1).natAbs + (a.2 - b.2).natAbs

/-- Python min(candidates, key=lambda p: manhattan(p, start)): scans left to
right keeping the first element with strictly smallest key. -/
def minByMan (start : Pos) : Pos → List Pos → Pos
  | best, [] => best
  | best, p :: ps =>
      minByMan start (if manhattan p start < manhattan best start then p else best) ps

/-- nearest_aisle (search.py:30-56).  Outer `none` is a raised IndexError;
`some none` is the Python value None (no aisle candidate). -/
def nearest_aisle (grid : Grid) (start goal : Pos) : Option (Option Pos) := do
  let row0 ← grid.head?
  let width : Int := (row0.length : Int)
  let gx := goal.1
  let gy := goal.2
  let leftOk ← if 0 ≤ gx - 1 then
      (cellAt grid (gx - 1) gy).map (fun c => c == 0)
    else pure false
  let rightOk ← if gx + 1 < width then
      (cellAt grid (gx + 1) gy).map (fun c => c == 0)
    else pure false
  let candidates := (if leftOk then [((gx - 1 : Int), gy)] else []) ++
                    (if rightOk then [((gx + 1 : Int), gy)] else [])
  match candidates with
  | [] => pure none
  | c :: cs => pure (some (minByMan start c cs))

/-- Strict lexicographic comparison of heap entries, i.e. Python's `<` on the
tuples (f, g, (x, y)). -/
def keyLt (a b : Entry) : Prop :=
  a.1 < b.1 ∨ (a.1 = b.1 ∧ (a.2.1 < b.2.1 ∨ (a.2.1 = b.2.1 ∧
    (a.2.2.1 < b.2.2.1 ∨ (a.2.2.1 = b.2.2.1 ∧ a.2.2.2 < b.2.2.2)))))

instance : DecidablePred (fun ab : Entry × Entry => keyLt ab.1 ab.2) := by
  intro ab; unfold keyLt; infer_instance

instance (a b : Entry) : Decidable (keyLt a b) := by
  unfold keyLt; infer_instance

/-- The minimal entry of `e :: l` (first-encountered among equals; entries in
one heap are pairwise distinct, so this is the element `heapq.heappop`
returns). -/
def minEntry : Entry → List Entry → Entry
  | best, [] => best
  | best, e :: es => minEntry (if keyLt e best then e else best) es

/-- Remove the first occurrence of `e` from `l`. -/
def removeFirst : List Entry → Entry → List Entry
  | [], _ => []
  | x :: xs, e => if x = e then xs else x :: removeFirst xs e

/-- heapq.heappop on a nonempty heap: return the minimal entry and the
remaining heap contents. -/
def popMin (l : List Entry) : Option (Entry × List Entry) :=
  match l with
  | [] => none
  | x :: xs =>
      let m := minEntry x xs
      some (m, removeFirst (x :: xs) m)

theorem minEntry_mem : ∀ (best : Entry) (l : List Entry),
    minEntry best l = best ∨ minEntry best l ∈ l := by
  intro best l
  induction l generalizing best with
  | nil => exact Or.inl rfl
  | cons e es ih =>
      rcases ih (if keyLt e best then e else best) with h | h
      · rw [minEntry, h]
        by_cases hk : keyLt e best
        · rw [if_pos hk]
          exact Or.inr (List.mem_cons_self _ _)
        · rw [if_neg hk]
          exact Or.inl rfl
      · rw [minEntry]
        exact Or.inr (List.mem_cons_of_mem _ h)

theorem removeFirst_perm : ∀ (l : List Entry) (e : Entry), e ∈ l →
    l.Perm (e :: removeFirst l e) := by
  intro l
  induction l with
  | nil => intro e he; cases he
  | cons x xs ih =>
      intro e he
      by_cases hx : x = e
      · subst hx
        rw [removeFirst, if_pos rfl]
      · rw [removeFirst, if_neg hx]
        have hxs : e ∈ xs := by
          rcases List.mem_cons.mp he with h | h
          · exact absurd h.symm hx
          · exact h
        exact ((ih e hxs).cons x).trans (List.Perm.swap e x (removeFirst xs e))

theorem keyLt_trans {a b c : Entry} (h1 : keyLt a b) (h2 : keyLt b c) :
    keyLt a c := by
  obtain ⟨af, ag, ax, ay⟩ := a
  obtain ⟨bf, bg, bx, byy⟩ := b
  obtain ⟨cf, cg, cx, cy⟩ := c
  simp only [keyLt] at h1 h2 ⊢
  omega

theorem keyLt_irrefl (a : Entry) : ¬ keyLt a a := by
  obtain ⟨af, ag, ax, ay⟩ := a
  simp only [keyLt]
  omega

theorem keyLt_total {a b : Entry} (h1 : ¬ keyLt a b) (h2 : a ≠ b) :
    keyLt b a := by
  obtain ⟨af, ag, ax, ay⟩ := a
  obtain ⟨bf, bg, bx, byy⟩ := b
  simp only [keyLt] at h1 ⊢
  simp only [ne_eq, Prod.mk.injEq, not_and] at h2
  by_contra h3
  simp only [keyLt, not_or, not_and, not_lt] at h3
  omega

theorem minEntry_not_lt : ∀ (l : List Entry) (best e : Entry),
    (e = best ∨ e ∈ l) → ¬ keyLt e (minEntry best l) := by
  intro l
  induction l with
  | nil =>
      intro best e he
      rcases he with rfl | h
      · exact keyLt_irrefl e
      · cases h
  | cons x xs ih =>
      intro best e he
      rw [minEntry]
      rcases he with rfl | h
      · by_cases hk : keyLt x e
        · rw [if_pos hk]
          intro hlt
          have h1 : ¬ keyLt x (minEntry x xs) := ih x x (Or.inl rfl)
          by_cases heq : minEntry x xs = x
          · rw [heq] at hlt
            exact keyLt_irrefl e (keyLt_trans hlt hk)
          · have h2 : keyLt (minEntry x xs) x :=
              keyLt_total h1 (fun hb => heq hb.symm)
            exact keyLt_irrefl e (keyLt_trans (keyLt_trans hlt h2) hk)
        · rw [if_neg hk]
          exact ih e e (Or.inl rfl)
      · rcases List.mem_cons.mp h with rfl | hxs
        · by_cases hk : keyLt e best
          · rw [if_pos hk]
            exact ih e e (Or.inl rfl)
          · rw [if_neg hk]
            intro hlt
            have h1 : ¬ keyLt best (minEntry best xs) := ih best best (Or.inl rfl)
            by_cases heq : minEntry best xs = best
            · rw [heq] at hlt
              exact hk hlt
            · have h2 : keyLt (minEntry best xs) best :=
                keyLt_total h1 (fun hb => heq hb.symm)
              exact hk (keyLt_trans hlt h2)
        · by_cases hk : keyLt x best
          · rw [if_pos hk]
            exact ih x e (Or.inr hxs)
          · rw [if_neg hk]
            exact ih best e (Or.inr hxs)

/-- Search state: the frontier `open_set`, the dicts `came_from` and
`g_cost`, the `expansions` counter, and ghost chronological traces of all
pops and pushes. -/
structure AState where
  openSet : List Entry
  cameFrom : List (Pos × Pos)
  gCost : List (Pos × Nat)
  expansions : Nat
  pops : List Entry
  pushes : List Entry
deriving Repr, DecidableEq

/-- The four movement directions of search.py:92, in source order. -/
def directions : List Pos := [(0, 1), (1, 0), (0, -1), (-1, 0)]

/-- The update guard of search.py:118: `(nx, ny) not in g_cost or
new_cost < g_cost[(nx, ny)]`. -/
def shouldUpd (gOld : Option Nat) (newCost : Nat) : Bool :=
  match gOld with
  | none => true
  | some old => newCost < old

/-- One iteration of the `for dx, dy in directions` body
(search.py:104-122) for a single direction `d`, expanding from `cur`. -/
def stepDir (grid : Grid) (W H : Int) (goal cur : Pos) (st : AState) (d : Pos) :
    Option AState :=
  let nx := cur.1 + d.1
  let ny := cur.2 + d.2
  if ¬ (0 ≤ nx ∧ nx < W ∧ 0 ≤ ny ∧ ny < H) then some st
  else
    (cellAt grid nx ny).bind fun c =>
      if c == 1 then some st
      else
        (lookupPos st.gCost cur).bind fun gc =>
          let newCost := gc + 1
          if shouldUpd (lookupPos st.gCost (nx, ny)) newCost then
            let e : Entry := (newCost + manhattan (nx, ny) goal, newCost, (nx, ny))
            some { st with
                    openSet := st.openSet ++ [e],
                    gCost := insertPos st.gCost (nx, ny) newCost,
                    cameFrom := insertPos st.cameFrom (nx, ny) cur,
                    pushes := st.pushes ++ [e] }
          else some st

/-- The `while open_set` loop of search.py:94-122.  Returns the state at
loop exit (`break` on popping the goal, or frontier exhaustion); `none`
models a raised exception or fuel exhaustion. -/
def astarLoop (grid : Grid) (W H : Int) (goal : Pos) : Nat → AState → Option AState
  | 0, _ => none
  | fuel + 1, st =>
    match popMin st.openSet with
    | none => some st
    | some (e, rest) =>
      let st1 : AState :=
        { st with openSet := rest, expansions := st.expansions + 1,
                  pops := st.pops ++ [e] }
      if e.2.2 = goal then some st1
      else
        (directions.foldlM (stepDir grid W H goal e.2.2) st1 : Option AState).bind
          (astarLoop grid W H goal fuel)

/-- The `while node != start` back-pointer walk of search.py:139-141,
accumulating `path.append(node)`. -/
def reconLoop (cameFrom : List (Pos × Pos)) (start : Pos) :
    Nat → Pos → List Pos → Option (List Pos)
  | 0, _, _ => none
  | fuel + 1, node, acc =>
    if node = start then some acc
    else
      match lookupPos cameFrom node with
      | none => none
      | some p => reconLoop cameFrom start fuel p (acc ++ [node])

/-- Search result: path (`none` is Python None), cost (`none` is
float("inf")), and the expansion count.  The runtime component is dropped. -/
structure AResult where
  path : Option (List Pos)
  cost : Option Nat
  expansions : Nat
deriving Repr, DecidableEq

/-- The initial search state: open_set = [(0, 0, start)], empty came_from,
g_cost = {start: 0}, expansions = 0. -/
def initState (start : Pos) : AState :=
  ⟨[(0, 0, start)], [], [(start, 0)], 0, [], [(0, 0, start)]⟩

/-- Goal resolution (search.py:71-77): a shelf goal is replaced by its
nearest aisle neighbour; `some none` means the shelf is inaccessible. -/
def resolveGoal (grid : Grid) (start goal : Pos) : Option (Option Pos) := do
  let gcell ← cellAt grid goal.1 goal.2
  if gcell == 1 then nearest_aisle grid start goal else pure (some goal)

/-- a_star_search (search.py:58-151), with explicit fuel for the two
unbounded loops. -/
def a_star_search (fuel : Nat) (grid : Grid) (start goal0 : Pos) :
    Option AResult := do
  let row0 ← grid.head?
  let W : Int := (row0.length : Int)
  let H : Int := (grid.length : Int)
  let goalRes ← resolveGoal grid start goal0
  match goalRes with
  | none => pure ⟨none, none, 0⟩
  | some goal =>
    let stF ← astarLoop grid W H goal fuel (initState start)
    if lookupPos stF.cameFrom goal = none ∧ ¬ start = goal then
      pure ⟨none, none, stF.expansions⟩
    else if start = goal then
      pure ⟨some [start], some 0, stF.expansions⟩
    else do
      let acc ← reconLoop stF.cameFrom start fuel goal []
      let path := (acc ++ [start]).reverse
      pure ⟨some path, some (path.length - 1), stF.expansions⟩

/-- Variant of `a_star_search` that also returns the final loop state (for
the trace-level claims about pops and pushes); `a_star_search` is its
projection. -/
def a_star_traced (fuel : Nat) (grid : Grid) (start goal0 : Pos) :
    Option AState := do
  let row0 ← grid.head?
  let W : Int := (row0.length : Int)
  let H : Int := (grid.length : Int)
  let goalRes ← resolveGoal grid start goal0
  match goalRes with
  | none => pure (initState start)
  | some goal => astarLoop grid W H goal fuel (initState start)

/-! ## setGrid.py and grid.py -/

/-- create_grid (setGrid.py:8-9 and grid.py:4-5): a height x width grid of
zeros. -/
def create_grid (width height : Nat) : Grid :=
  List.replicate height (List.replicate width 0)

/-- add_obstacle (setGrid.py:12-13 and grid.py:8-9): grid[y][x] = 1, with
Python index semantics (negative wrap-around, IndexError out of range).
The row is read, mutated at x, and written back at the same position. -/
def add_obstacle (grid : Grid) (x y : Int) : Option Grid := do
  let row ← pyNth grid y
  let row' ← pySet row x 1
  pySet grid y row'

/-- is_free (setGrid.py:58-59 and grid.py:12-13): grid[x][y] == 0.  Note
that the source indexes the outer list by x and the row by y. -/
def is_free (grid : Grid) (x y : Int) : Option Bool := do
  let row ← pyNth grid x
  let c ← pyNth row y
  pure (c == 0)

/-- Modelled from the spec: the repository has no build(width, height,
shelfCoordinates) wrapper; the spec's contract composes the source's
create_grid with one add_obstacle call per shelf coordinate. -/
def build (width height : Nat) (coords : List (Int × Int)) : Option Grid :=
  coords.foldlM (fun g c => add_obstacle g c.1 c.2) (create_grid width height)

/-! ## Dictionary lemmas -/

theorem lookupPos_insert_self (d : List (Pos × α)) (k : Pos) (v : α) :
    lookupPos (insertPos d k v) k = some v := by
  induction d with
  | nil => simp [insertPos, lookupPos]
  | cons kv rest ih =>
      obtain ⟨k', v'⟩ := kv
      by_cases h : k' = k
      · simp [insertPos, h, lookupPos]
      · simp [insertPos, h, lookupPos, ih]

theorem lookupPos_insert_ne (d : List (Pos × α)) (k k' : Pos) (v : α)
    (h : k ≠ k') : lookupPos (insertPos d k v) k' = lookupPos d k' := by
  induction d with
  | nil => simp [insertPos, lookupPos, h]
  | cons kv rest ih =>
      obtain ⟨k0, v0⟩ := kv
      by_cases h0 : k0 = k
      · subst h0
        simp [insertPos, lookupPos, h, ih]
      · simp only [insertPos, if_neg h0]
        by_cases h1 : k0 = k'
        · simp [lookupPos, h1]
        · simp [lookupPos, h1, ih]

theorem manhattan_comm (a b : Pos) : manhattan a b = manhattan b a := by
  simp only [manhattan]
  omega

theorem manhattan_self (a : Pos) : manhattan a a = 0 := by
  simp [manhattan]

theorem manhattan_eq_zero_iff (a b : Pos) : manhattan a b = 0 ↔ a = b := by
  obtain ⟨ax, ay⟩ := a
  obtain ⟨bx, by'⟩ := b
  simp only [manhattan, Prod.mk.injEq]
  omega

/-- Each expansion direction moves the coordinate by Manhattan distance 1. -/
theorem manhattan_step (cur d : Pos) (hd : d ∈ directions) :
    manhattan (cur.1 + d.1, cur.2 + d.2) cur = 1 := by
  fin_cases hd <;> (simp only [manhattan]; omega)

theorem manhattan_triangle (a b c : Pos) :
    manhattan a c ≤ manhattan a b + manhattan b c := by
  simp only [manhattan]
  omega

theorem manhattan_parity (a b c : Pos) :
    (manhattan a b + manhattan b c) % 2 = manhattan a c % 2 := by
  simp only [manhattan]
  omega

/-- A coordinate at Manhattan distance 1 is reached by one of the four
direction steps. -/
theorem adjacent_eq_dir_step (n c : Pos) (h : manhattan n c = 1) :
    ∃ d ∈ directions, n = (c.1 + d.1, c.2 + d.2) := by
  obtain ⟨nx, ny⟩ := n
  obtain ⟨cx, cy⟩ := c
  simp only [manhattan] at h
  simp only [directions, List.mem_cons, List.mem_singleton, Prod.mk.injEq]
  by_cases h1 : ny = cy + 1
  · exact ⟨(0, 1), by tauto, by omega, by omega⟩
  · by_cases h2 : nx = cx + 1
    · exact ⟨(1, 0), by tauto, by omega, by omega⟩
    · by_cases h3 : ny = cy - 1
      · exact ⟨(0, -1), by tauto, by omega, by omega⟩
      · exact ⟨(-1, 0), by tauto, by omega, by omega⟩

theorem lookupPos_eq_none_iff (d : List (Pos × α)) (k : Pos) :
    lookupPos d k = none ↔ k ∉ d.map Prod.fst := by
  induction d with
  | nil => simp [lookupPos]
  | cons kv rest ih =>
      obtain ⟨k0, v0⟩ := kv
      by_cases h : k0 = k
      · subst h
        simp [lookupPos]
      · simp [lookupPos, h, ih, Ne.symm h]

theorem insertPos_keys_of_none (d : List (Pos × α)) (k : Pos) (v : α)
    (h : lookupPos d k = none) :
    (insertPos d k v).map Prod.fst = d.map Prod.fst ++ [k] := by
  induction d with
  | nil => simp [insertPos]
  | cons kv rest ih =>
      obtain ⟨k0, v0⟩ := kv
      by_cases h0 : k0 = k
      · subst h0
        simp [lookupPos] at h
      · simp only [lookupPos, if_neg h0] at h
        simp [insertPos, h0, ih h]

theorem insertPos_keys_of_some (d : List (Pos × α)) (k : Pos) (v w : α)
    (h : lookupPos d k = some w) :
    (insertPos d k v).map Prod.fst = d.map Prod.fst := by
  induction d with
  | nil => simp [lookupPos] at h
  | cons kv rest ih =>
      obtain ⟨k0, v0⟩ := kv
      by_cases h0 : k0 = k
      · subst h0
        simp [insertPos]
      · simp only [lookupPos, if_neg h0] at h
        simp [insertPos, h0, ih h]

theorem insertPos_length_of_none (d : List (Pos × α)) (k : Pos) (v : α)
    (h : lookupPos d k = none) :
    (insertPos d k v).length = d.length + 1 := by
  have := insertPos_keys_of_none d k v h
  have h2 := congrArg List.length this
  simpa using h2

theorem lookupPos_mono (d : List (Pos × α)) (k k' : Pos) (v : α) (w : α)
    (hk : lookupPos d k = none) (h : lookupPos d k' = some w) :
    lookupPos (insertPos d k v) k' = some w := by
  have hne : k ≠ k' := by
    intro he
    rw [he, h] at hk
    cases hk
  rw [lookupPos_insert_ne _ _ _ _ hne]
  exact h

/-! ## The came_from chain invariant (claim C2) -/

/-- Invariant: every back-pointer step is a unit move and strictly
decreases the recorded g cost; both endpoints have recorded g costs. -/
def ChainInv (st : AState) : Prop :=
  ∀ n q, lookupPos st.cameFrom n = some q →
    manhattan n q = 1 ∧
    ∃ gn gq, lookupPos st.gCost n = some gn ∧
      lookupPos st.gCost q = some gq ∧ gq < gn

theorem chainInv_init (start : Pos) : ChainInv (initState start) := by
  intro n q h
  simp [initState, lookupPos] at h

theorem stepDir_chainInv {grid : Grid} {W H : Int} {goal cur : Pos}
    {st st' : AState} {d : Pos} (hd : d ∈ directions)
    (hinv : ChainInv st) (h : stepDir grid W H goal cur st d = some st') :
    ChainInv st' := by
  unfold stepDir at h
  by_cases hb : ¬ (0 ≤ cur.1 + d.1 ∧ cur.1 + d.1 < W ∧ 0 ≤ cur.2 + d.2 ∧ cur.2 + d.2 < H)
  · rw [if_pos hb] at h
    cases h
    exact hinv
  · rw [if_neg hb] at h
    rcases hc : cellAt grid (cur.1 + d.1) (cur.2 + d.2) with _ | c
    · rw [hc] at h; cases h
    · rw [hc] at h
      simp only [Option.some_bind] at h
      by_cases h1 : c == 1
      · rw [if_pos h1] at h
        cases h
        exact hinv
      · rw [if_neg h1] at h
        rcases hg : lookupPos st.gCost cur with _ | gc
        · rw [hg] at h; cases h
        · rw [hg] at h
          simp only [Option.some_bind] at h
          set n' : Pos := (cur.1 + d.1, cur.2 + d.2) with hn'
          have hman : manhattan n' cur = 1 := manhattan_step cur d hd
          have hne : n' ≠ cur := by
            intro he
            rw [he, manhattan_self] at hman
            exact absurd hman one_ne_zero.symm
          by_cases hupd : shouldUpd (lookupPos st.gCost n') (gc + 1) = true
          · rw [if_pos hupd] at h
            cases h
            intro n q hnq
            by_cases hn : n = n'
            · subst hn
              simp only [lookupPos_insert_self] at hnq
              cases hnq
              refine ⟨hman, gc + 1, gc, lookupPos_insert_self _ _ _, ?_, by omega⟩
              rw [lookupPos_insert_ne _ _ _ _ (Ne.symm (fun he => hne he.symm))]
              exact hg
            · rw [lookupPos_insert_ne _ _ _ _ (fun he => hn he.symm)] at hnq
              obtain ⟨hm, gn, gq, hgn, hgq, hlt⟩ := hinv n q hnq
              refine ⟨hm, ?_⟩
              by_cases hq : q = n'
              · subst hq
                refine ⟨gn, gc + 1, ?_, lookupPos_insert_self _ _ _, ?_⟩
                · rw [lookupPos_insert_ne _ _ _ _ (fun he => hn he.symm)]
                  exact hgn
                · rw [hgq] at hupd
                  simp only [shouldUpd, decide_eq_true_eq] at hupd
                  omega
              · refine ⟨gn, gq, ?_, ?_, hlt⟩
                · rw [lookupPos_insert_ne _ _ _ _ (fun he => hn he.symm)]
                  exact hgn
                · rw [lookupPos_insert_ne _ _ _ _ (fun he => hq he.symm)]
                  exact hgq
          · rw [if_neg hupd] at h
            cases h
            exact hinv

theorem foldlM_stepDir_chainInv {grid : Grid} {W H : Int} {goal cur : Pos} :
    ∀ (l : List Pos) (st st' : AState), (∀ d ∈ l, d ∈ directions) →
    ChainInv st → (l.foldlM (stepDir grid W H goal cur) st : Option AState) = some st' →
    ChainInv st' := by
  intro l
  induction l with
  | nil =>
      intro st st' _ hinv h
      simp only [List.foldlM_nil] at h
      cases h
      exact hinv
  | cons d rest ih =>
      intro st st' hmem hinv h
      simp only [List.foldlM_cons] at h
      rcases hstep : stepDir grid W H goal cur st d with _ | st1
      · rw [hstep] at h
        simp at h
      · rw [hstep] at h
        simp only [Option.bind_eq_bind, Option.some_bind] at h
        exact ih st1 st' (fun d' hd' => hmem d' (List.mem_cons_of_mem _ hd'))
          (stepDir_chainInv (hmem d (List.mem_cons_self _ _)) hinv hstep) h

theorem astarLoop_chainInv {grid : Grid} {W H : Int} {goal : Pos} :
    ∀ (fuel : Nat) (st st' : AState),
    astarLoop grid W H goal fuel st = some st' → ChainInv st → ChainInv st' := by
  intro fuel
  induction fuel with
  | zero => intro st st' h; cases h
  | succ k ih =>
      intro st st' h hinv
      unfold astarLoop at h
      rcases hp : popMin st.openSet with _ | er
      · rw [hp] at h
        cases h
        exact hinv
      · obtain ⟨e, rest⟩ := er
        rw [hp] at h
        dsimp only at h
        by_cases hgoal : e.2.2 = goal
        · rw [if_pos hgoal] at h
          cases h
          exact hinv
        · rw [if_neg hgoal] at h
          rcases hf : (directions.foldlM (stepDir grid W H goal e.2.2)
              { st with openSet := rest, expansions := st.expansions + 1,
                        pops := st.pops ++ [e] } : Option AState) with _ | st2
          · rw [hf] at h; cases h
          · rw [hf] at h
            simp only [Option.some_bind] at h
            refine ih st2 st' h
              (foldlM_stepDir_chainInv directions _ st2 (fun d hd => hd) ?_ hf)
            exact hinv

/-! ## The no-reexpansion invariant bundle (for claims C3, C4 and C1) -/

/-- A frontier or trace entry is never stale: its g component equals the
currently recorded g cost of its coordinate, and its f component is g plus
the Manhattan heuristic to the resolved goal (except the initial
(0, 0, start) entry, which search.py:81 pushes with f = 0). -/
def EntryForm (goal start : Pos) (st : AState) (e : Entry) : Prop :=
  lookupPos st.gCost e.2.2 = some e.2.1 ∧
  (e.1 = e.2.1 + manhattan e.2.2 goal ∨ e = (0, 0, start))

/-- The invariant bundle of one a_star_search run: the frontier holds
pairwise distinct coordinates with non-stale entries, popped entries have
strictly increasing keys all below every open key, every recorded g cost
has the parity of its Manhattan distance from start and is witnessed by a
back-pointer chain through an already popped parent, every open entry's
assigned neighbours are within one step of its g, pushes are exactly the
open entries plus the popped entries, every assigned non-start cell is an
in-bounds non-shelf cell, every popped node has all its free in-bounds
neighbours assigned within one step, and the goal has never been popped. -/
structure NInvA (grid : Grid) (W H : Int) (goal start : Pos)
    (excl : List Entry) (st : AState) : Prop where
  ns : ∀ e ∈ st.openSet, EntryForm goal start st e
  uniq : (st.openSet.map (fun e : Entry => e.2.2)).Nodup
  keyM : ∀ ep ∈ st.pops, ∀ e ∈ st.openSet, keyLt ep e
  popsNS : ∀ ep ∈ st.pops, EntryForm goal start st ep
  popsUniq : (st.pops.map (fun e : Entry => e.2.2)).Nodup
  popsNotOpen : ∀ ep ∈ st.pops, ∀ e ∈ st.openSet, e.2.2 ≠ ep.2.2
  popsOrd : st.pops.Pairwise keyLt
  par : ∀ c v, lookupPos st.gCost c = some v → v % 2 = manhattan c start % 2
  startG : lookupPos st.gCost start = some 0
  gpos : ∀ c v, lookupPos st.gCost c = some v → c ≠ start → 1 ≤ v
  cf : ∀ c v, lookupPos st.gCost c = some v → c ≠ start →
        ∃ p, lookupPos st.cameFrom c = some p ∧ manhattan c p = 1 ∧
          lookupPos st.gCost p = some (v - 1) ∧
          ∃ ep ∈ st.pops, ep.2.2 = p ∧ ep.2.1 = v - 1
  wBound : ∀ e ∈ st.openSet, ∀ n vn, manhattan n e.2.2 = 1 →
        lookupPos st.gCost n = some vn → vn ≤ e.2.1 + 1
  pushesNS : ∀ e ∈ st.pushes, EntryForm goal start st e
  pushesUniq : (st.pushes.map (fun e : Entry => e.2.2)).Nodup
  pushesPerm : st.pushes.Perm (st.openSet ++ st.pops)
  domPushed : ∀ c v, lookupPos st.gCost c = some v → ∃ e ∈ st.pushes, e.2.2 = c
  freeCells : ∀ c v, lookupPos st.gCost c = some v → c ≠ start →
        (0 ≤ c.1 ∧ c.1 < W ∧ 0 ≤ c.2 ∧ c.2 < H) ∧
        ∃ cv, cellAt grid c.1 c.2 = some cv ∧ ¬ cv = 1
  expanded : ∀ ep ∈ st.pops, ep ∉ excl → ∀ n : Pos, manhattan n ep.2.2 = 1 →
        (0 ≤ n.1 ∧ n.1 < W ∧ 0 ≤ n.2 ∧ n.2 < H) →
        (∀ cv, cellAt grid n.1 n.2 = some cv → ¬ cv = 1) →
        ∃ vn, lookupPos st.gCost n = some vn ∧ vn ≤ ep.2.1 + 1
  keysNodup : (st.gCost.map Prod.fst).Nodup
  keysDom : ∀ c ∈ st.gCost.map Prod.fst, c = start ∨
        (0 ≤ c.1 ∧ c.1 < W ∧ 0 ≤ c.2 ∧ c.2 < H)

theorem lookupPos_singleton {k0 : Pos} {v0 : α} {c : Pos} {v : α}
    (h : lookupPos [(k0, v0)] c = some v) : c = k0 ∧ v = v0 := by
  by_cases he : k0 = c
  · subst he
    simp [lookupPos] at h
    exact ⟨rfl, h.symm⟩
  · simp [lookupPos, he] at h

/-- NInv is the bundle with no exception: every popped entry has been
fully expanded. -/
abbrev NInv (grid : Grid) (W H : Int) (goal start : Pos) (st : AState) :
    Prop := NInvA grid W H goal start [] st

theorem ninv_init (grid : Grid) (W H : Int) (goal start : Pos)
    (excl : List Entry) :
    NInvA grid W H goal start excl (initState start) := by
  constructor
  case ns =>
    intro e he
    simp only [initState, List.mem_singleton] at he
    subst he
    exact ⟨by simp [lookupPos], Or.inr rfl⟩
  case uniq => simp [initState]
  case keyM => intro ep hep; simp [initState] at hep
  case popsNS => intro ep hep; simp [initState] at hep
  case popsUniq => simp [initState]
  case popsNotOpen => intro ep hep; simp [initState] at hep
  case popsOrd => simp [initState]
  case par =>
    intro c v h
    obtain ⟨rfl, rfl⟩ := lookupPos_singleton h
    simp [manhattan_self]
  case startG => simp [initState, lookupPos]
  case gpos =>
    intro c v h hne
    exact absurd (lookupPos_singleton h).1 hne
  case cf =>
    intro c v h hne
    exact absurd (lookupPos_singleton h).1 hne
  case wBound =>
    intro e he n vn hman hv
    simp only [initState, List.mem_singleton] at he
    subst he
    obtain ⟨rfl, rfl⟩ := lookupPos_singleton hv
    rw [manhattan_self] at hman
    cases hman
  case pushesNS =>
    intro e he
    simp only [initState, List.mem_singleton] at he
    subst he
    exact ⟨by simp [lookupPos], Or.inr rfl⟩
  case pushesUniq => simp [initState]
  case pushesPerm => simp [initState]
  case domPushed =>
    intro c v h
    exact ⟨(0, 0, start), by simp [initState], (lookupPos_singleton h).1.symm⟩
  case freeCells =>
    intro c v h hne
    exact absurd (lookupPos_singleton h).1 hne
  case expanded => intro ep hep; simp [initState] at hep
  case keysNodup => simp [initState]
  case keysDom =>
    intro c hc
    simp only [initState, List.map_cons, List.map_nil, List.mem_singleton] at hc
    exact Or.inl hc

theorem popMin_spec {l : List Entry} {e : Entry} {rest : List Entry}
    (h : popMin l = some (e, rest)) :
    l.Perm (e :: rest) ∧ ∀ x ∈ l, ¬ keyLt x e := by
  match l with
  | [] => cases h
  | x :: xs =>
      simp only [popMin, Option.some.injEq, Prod.mk.injEq] at h
      obtain ⟨he, hrest⟩ := h
      subst he
      subst hrest
      have hmem : minEntry x xs ∈ x :: xs := by
        rcases minEntry_mem x xs with h1 | h1
        · rw [h1]
          exact List.mem_cons_self _ _
        · exact List.mem_cons_of_mem _ h1
      refine ⟨removeFirst_perm _ _ hmem, ?_⟩
      intro y hy
      rcases List.mem_cons.mp hy with h2 | h2
      · rw [h2]
        exact minEntry_not_lt xs x x (Or.inl rfl)
      · exact minEntry_not_lt xs x y (Or.inr h2)

/-- Facts after one heap pop (search.py:95-96) of a non-goal entry: the
invariant bundle holds at the post-pop state with the popped entry as the
not-yet-expanded exception; the popped entry dominates all earlier pops,
and every assigned neighbour of it is within one step of its g. -/
theorem popStep_ninv {grid : Grid} {W H : Int} {goal start : Pos}
    {st : AState} {e : Entry} {rest : List Entry}
    (hinv : NInv grid W H goal start st)
    (hpop : popMin st.openSet = some (e, rest)) :
    NInvA grid W H goal start [e]
      { st with openSet := rest, expansions := st.expansions + 1,
                pops := st.pops ++ [e] } ∧
    (∀ ep ∈ st.pops ++ [e], ep = e ∨ keyLt ep e) ∧
    (∀ n vn, manhattan n e.2.2 = 1 → lookupPos st.gCost n = some vn →
      vn ≤ e.2.1 + 1) ∧
    e ∈ st.openSet := by
  obtain ⟨hperm, hmin⟩ := popMin_spec hpop
  have hemem : e ∈ st.openSet := hperm.mem_iff.mpr (List.mem_cons_self _ _)
  have hcoords : ((e :: rest).map (fun x : Entry => x.2.2)).Nodup :=
    (hperm.map _).nodup_iff.mp hinv.uniq
  have hcoords' := List.nodup_cons.mp hcoords
  have hecoord_notin : e.2.2 ∉ rest.map (fun x : Entry => x.2.2) := hcoords'.1
  have hrestsub : ∀ x ∈ rest, x ∈ st.openSet :=
    fun x hx => hperm.mem_iff.mpr (List.mem_cons_of_mem _ hx)
  have hrestcoord : ∀ x ∈ rest, x.2.2 ≠ e.2.2 := by
    intro x hx heq
    exact hecoord_notin (heq ▸ List.mem_map_of_mem _ hx)
  have hkeyrest : ∀ x ∈ rest, keyLt e x := by
    intro x hx
    exact keyLt_total (hmin x (hrestsub x hx))
      (fun heq => hrestcoord x hx (by rw [heq]))
  have hmax : ∀ ep ∈ st.pops ++ [e], ep = e ∨ keyLt ep e := by
    intro ep hep
    rcases List.mem_append.mp hep with h | h
    · exact Or.inr (hinv.keyM ep h e hemem)
    · exact Or.inl (List.mem_singleton.mp h)
  have hw0 : ∀ n vn, manhattan n e.2.2 = 1 →
      lookupPos st.gCost n = some vn → vn ≤ e.2.1 + 1 :=
    fun n vn hman hvn => hinv.wBound e hemem n vn hman hvn
  refine ⟨?_, hmax, hw0, hemem⟩
  constructor
  case ns => exact fun x hx => hinv.ns x (hrestsub x hx)
  case uniq => exact hcoords'.2
  case keyM =>
    intro ep hep x hx
    rcases List.mem_append.mp hep with h | h
    · exact hinv.keyM ep h x (hrestsub x hx)
    · rw [List.mem_singleton.mp h]
      exact hkeyrest x hx
  case popsNS =>
    intro ep hep
    rcases List.mem_append.mp hep with h | h
    · exact hinv.popsNS ep h
    · rw [List.mem_singleton.mp h]
      exact hinv.ns e hemem
  case popsUniq =>
    rw [List.map_append, List.nodup_append]
    refine ⟨hinv.popsUniq, by simp, ?_⟩
    intro c hc
    simp only [List.map_cons, List.map_nil, List.mem_singleton]
    intro hce
    obtain ⟨ep, hep, hepc⟩ := List.mem_map.mp hc
    exact hinv.popsNotOpen ep hep e hemem (by rw [← hce, hepc])
  case popsNotOpen =>
    intro ep hep x hx
    rcases List.mem_append.mp hep with h | h
    · exact hinv.popsNotOpen ep h x (hrestsub x hx)
    · rw [List.mem_singleton.mp h]
      exact hrestcoord x hx
  case popsOrd =>
    rw [List.pairwise_append]
    exact ⟨hinv.popsOrd, List.pairwise_singleton _ _,
      fun a ha b hb => (List.mem_singleton.mp hb) ▸ hinv.keyM a ha e hemem⟩
  case par => exact hinv.par
  case startG => exact hinv.startG
  case gpos => exact hinv.gpos
  case cf =>
    intro c v h hne
    obtain ⟨p, h1, h2, h3, ep, hep, h4, h5⟩ := hinv.cf c v h hne
    exact ⟨p, h1, h2, h3, ep, List.mem_append_left _ hep, h4, h5⟩
  case wBound => exact fun x hx => hinv.wBound x (hrestsub x hx)
  case pushesNS => exact hinv.pushesNS
  case pushesUniq => exact hinv.pushesUniq
  case pushesPerm =>
    have h1 : (st.openSet ++ st.pops).Perm ((e :: rest) ++ st.pops) :=
      hperm.append_right _
    have h3 : (e :: (rest ++ st.pops)).Perm ((rest ++ st.pops) ++ [e]) :=
      (List.perm_append_singleton _ _).symm
    have h4 : (rest ++ st.pops) ++ [e] = rest ++ (st.pops ++ [e]) :=
      List.append_assoc _ _ _
    exact hinv.pushesPerm.trans (h1.trans (h4 ▸ h3))
  case domPushed => exact hinv.domPushed
  case freeCells => exact hinv.freeCells
  case expanded =>
    intro ep hep hexcl n hman hb hfree
    rcases List.mem_append.mp hep with h | h
    · exact hinv.expanded ep h (List.not_mem_nil _) n hman hb hfree
    · exact absurd (by simpa using List.mem_singleton.mp h) (by simpa using hexcl)
  case keysNodup => exact hinv.keysNodup
  case keysDom => exact hinv.keysDom

/-- Key comparison forces g comparison for nearby entries: if a popped
entry's key is below an open entry's key and their coordinates are at even
Manhattan distance at most 2, the popped g is at most the open g.  Uses
that both f values are g plus heuristic (or the initial entry), that both
g values have the parity of their distance from start, and the triangle
inequality of the heuristic. -/
theorem key_g_le {goal start : Pos} {e0 e : Entry}
    (hf0 : e0.1 = e0.2.1 + manhattan e0.2.2 goal ∨ e0 = (0, 0, start))
    (hfe : e.1 = e.2.1 + manhattan e.2.2 goal ∨ e = (0, 0, start))
    (hp0 : e0.2.1 % 2 = manhattan e0.2.2 start % 2)
    (hpe : e.2.1 % 2 = manhattan e.2.2 start % 2)
    (hman : manhattan e0.2.2 e.2.2 ≤ 2)
    (hmanpar : manhattan e0.2.2 e.2.2 % 2 = 0)
    (hk : keyLt e0 e) :
    e0.2.1 ≤ e.2.1 := by
  by_contra hgt
  push_neg at hgt
  have hpar1 : (manhattan start e0.2.2 + manhattan e0.2.2 e.2.2) % 2 =
      manhattan start e.2.2 % 2 := manhattan_parity start e0.2.2 e.2.2
  have hc0 : manhattan start e0.2.2 = manhattan e0.2.2 start := manhattan_comm _ _
  have hce : manhattan start e.2.2 = manhattan e.2.2 start := manhattan_comm _ _
  have hgap : e.2.1 + 2 ≤ e0.2.1 := by omega
  rcases hf0 with hf0 | hf0
  · rcases hfe with hfe | hfe
    · have htri : manhattan e.2.2 goal ≤ manhattan e.2.2 e0.2.2 +
          manhattan e0.2.2 goal := manhattan_triangle _ _ _
      have hcc : manhattan e.2.2 e0.2.2 = manhattan e0.2.2 e.2.2 :=
        manhattan_comm _ _
      obtain ⟨f0, g0, x0, y0⟩ := e0
      obtain ⟨fe, ge, xe, ye⟩ := e
      simp only [keyLt] at hk
      simp only at hf0 hfe hgap htri hcc hman
      omega
    · obtain ⟨f0, g0, x0, y0⟩ := e0
      rw [hfe] at hk hgap
      simp only [keyLt] at hk
      simp only at hgap
      omega
  · obtain ⟨fe, ge, xe, ye⟩ := e
    rw [hf0] at hk hgap
    simp only [keyLt] at hk
    simp only at hgap
    omega

/-- The key of a popped entry is strictly below the key of any child entry
it pushes (the A* expansion step never pushes below the current pop). -/
theorem keyLt_child {goal start : Pos} {e0 : Entry} {n' : Pos} {g0 : Nat}
    (hg : e0.2.1 = g0)
    (hf0 : e0.1 = e0.2.1 + manhattan e0.2.2 goal ∨ e0 = (0, 0, start))
    (hman : manhattan e0.2.2 n' = 1) :
    keyLt e0 (g0 + 1 + manhattan n' goal, g0 + 1, n') := by
  have htri : manhattan e0.2.2 goal ≤ manhattan e0.2.2 n' +
      manhattan n' goal := manhattan_triangle _ _ _
  rcases hf0 with hf0 | hf0
  · obtain ⟨f0, gg0, x0, y0⟩ := e0
    simp only at hf0 hg htri hman
    simp only [keyLt]
    omega
  · rw [hf0] at hg ⊢
    simp only at hg
    simp only [keyLt]
    omega

/-- While e0 is the maximal pop, every assigned coordinate within
Manhattan distance 2 of e0's coordinate has recorded g at most e0's g
plus 2: its back-pointer parent was popped no later than e0, and the
key comparison of the two pops bounds the parent's g. -/
theorem popMax_neighbor_bound {grid : Grid} {W H : Int} {goal start : Pos}
    {excl : List Entry} {st : AState} {e0 : Entry}
    (hinv : NInvA grid W H goal start excl st)
    (he0 : e0 ∈ st.pops)
    (hmax : ∀ ep ∈ st.pops, ep = e0 ∨ keyLt ep e0)
    {n : Pos} {vn : Nat} (hvn : lookupPos st.gCost n = some vn)
    (hm2 : manhattan n e0.2.2 ≤ 2) :
    vn ≤ e0.2.1 + 2 := by
  obtain ⟨hns0g, hns0f⟩ := hinv.popsNS e0 he0
  by_cases hns : n = start
  · subst hns
    rw [hinv.startG] at hvn
    cases hvn
    omega
  · obtain ⟨p, hcfn, hmanp, hgp, ep, hep, hepc, hepg⟩ := hinv.cf n vn hvn hns
    have hvn1 : 1 ≤ vn := hinv.gpos n vn hvn hns
    have hvneq : vn = ep.2.1 + 1 := by omega
    rcases hmax ep hep with heq | hlt
    · subst heq
      omega
    · obtain ⟨hepg', hepf⟩ := hinv.popsNS ep hep
      rcases hepf with hf | hf
      · rcases hns0f with hf0 | hf0
        · -- both entries have f = g + heuristic
          have hparp : ep.2.1 % 2 = manhattan ep.2.2 start % 2 :=
            hinv.par ep.2.2 ep.2.1 hepg'
          have hpar0 : e0.2.1 % 2 = manhattan e0.2.2 start % 2 :=
            hinv.par e0.2.2 e0.2.1 hns0g
          have hparf1 : (manhattan start ep.2.2 + manhattan ep.2.2 goal) % 2 =
            manhattan start goal % 2 := manhattan_parity start ep.2.2 goal
          have hparf2 : (manhattan start e0.2.2 + manhattan e0.2.2 goal) % 2 =
            manhattan start goal % 2 := manhattan_parity start e0.2.2 goal
          have hcp : manhattan start ep.2.2 = manhattan ep.2.2 start :=
            manhattan_comm _ _
          have hc0 : manhattan start e0.2.2 = manhattan e0.2.2 start :=
            manhattan_comm _ _
          have htpc : manhattan ep.2.2 e0.2.2 ≤ 3 := by
            have h1 : manhattan ep.2.2 e0.2.2 ≤ manhattan ep.2.2 n +
                manhattan n e0.2.2 := manhattan_triangle _ _ _
            have h2 : manhattan ep.2.2 n ≤ manhattan ep.2.2 p +
                manhattan p n := by
              have h3 := manhattan_triangle ep.2.2 p n
              exact h3
            have h4 : manhattan ep.2.2 p = 0 := by
              rw [hepc, manhattan_self]
            have h5 : manhattan p n = manhattan n p := manhattan_comm _ _
            omega
          have htri : manhattan e0.2.2 goal ≤ manhattan e0.2.2 ep.2.2 +
              manhattan ep.2.2 goal := manhattan_triangle _ _ _
          have hcc : manhattan e0.2.2 ep.2.2 = manhattan ep.2.2 e0.2.2 :=
            manhattan_comm _ _
          obtain ⟨fp, gp, xp, yp⟩ := ep
          obtain ⟨f0, g0, x0, y0⟩ := e0
          simp only [keyLt] at hlt
          simp only at *
          omega
        · -- e0 is the initial entry: its key dominates ep only if ep has
          -- f = g = 0, so vn = 1
          rw [hf0] at hlt
          obtain ⟨fp, gp, xp, yp⟩ := ep
          simp only [keyLt] at hlt
          simp only at hvneq
          omega
      · -- ep is the initial entry: its g is 0, so vn = 1
        rw [hf] at hepg
        simp only at hepg
        omega

/-- Preservation of the invariant bundle by one direction step of the
expansion of the maximal pop e0: the no-update guard can only fire on a
coordinate not yet in g_cost (this is the heart of the no-reexpansion
argument), so the step pushes at most one fresh child.  The lemma also
returns that pops are unchanged, that the g table is monotone, a refreshed
neighbour bound for e0, and the processed-neighbour guarantee for this
direction. -/
theorem stepDir_ninv {grid : Grid} {W H : Int} {goal start : Pos}
    {st st' : AState} {e0 : Entry} {d : Pos}
    (hd : d ∈ directions)
    (hinv : NInvA grid W H goal start [e0] st)
    (he0 : e0 ∈ st.pops)
    (hmax : ∀ ep ∈ st.pops, ep = e0 ∨ keyLt ep e0)
    (hw0 : ∀ n vn, manhattan n e0.2.2 = 1 → lookupPos st.gCost n = some vn →
      vn ≤ e0.2.1 + 1)
    (h : stepDir grid W H goal e0.2.2 st d = some st') :
    NInvA grid W H goal start [e0] st' ∧
    st'.pops = st.pops ∧
    (∀ c v, lookupPos st.gCost c = some v → lookupPos st'.gCost c = some v) ∧
    (∀ n vn, manhattan n e0.2.2 = 1 → lookupPos st'.gCost n = some vn →
      vn ≤ e0.2.1 + 1) ∧
    ((0 ≤ e0.2.2.1 + d.1 ∧ e0.2.2.1 + d.1 < W ∧
      0 ≤ e0.2.2.2 + d.2 ∧ e0.2.2.2 + d.2 < H) →
      ∃ cv, cellAt grid (e0.2.2.1 + d.1) (e0.2.2.2 + d.2) = some cv ∧
      (¬ cv = 1 →
        ∃ vn, lookupPos st'.gCost (e0.2.2.1 + d.1, e0.2.2.2 + d.2) = some vn ∧
          vn ≤ e0.2.1 + 1)) := by
  obtain ⟨hg0look, hf0form⟩ := hinv.popsNS e0 he0
  unfold stepDir at h
  by_cases hb : ¬ (0 ≤ e0.2.2.1 + d.1 ∧ e0.2.2.1 + d.1 < W ∧
      0 ≤ e0.2.2.2 + d.2 ∧ e0.2.2.2 + d.2 < H)
  · rw [if_pos hb] at h
    cases h
    exact ⟨hinv, rfl, fun c v hv => hv, hw0, fun hbb => absurd hbb hb⟩
  · rw [if_neg hb] at h
    push_neg at hb
    rcases hc : cellAt grid (e0.2.2.1 + d.1) (e0.2.2.2 + d.2) with _ | cval
    · rw [hc] at h; cases h
    · rw [hc] at h
      simp only [Option.some_bind] at h
      by_cases h1 : cval == 1
      · rw [if_pos h1] at h
        cases h
        refine ⟨hinv, rfl, fun c v hv => hv, hw0, ?_⟩
        intro _
        refine ⟨cval, rfl, ?_⟩
        intro hne1
        exact absurd (by simpa using h1) hne1
      · rw [if_neg h1] at h
        rcases hg : lookupPos st.gCost e0.2.2 with _ | gc
        · rw [hg] at h; cases h
        · rw [hg] at h
          simp only [Option.some_bind] at h
          have hgc : gc = e0.2.1 := by
            rw [hg0look] at hg
            exact (Option.some.injEq _ _ ▸ hg).symm
          set nx := e0.2.2.1 + d.1 with hnx
          set ny := e0.2.2.2 + d.2 with hny
          set n' : Pos := (nx, ny) with hn'def
          have hman : manhattan n' e0.2.2 = 1 := manhattan_step e0.2.2 d hd
          have hnecur : n' ≠ e0.2.2 := by
            intro he
            rw [he, manhattan_self] at hman
            cases hman
          by_cases hupd : shouldUpd (lookupPos st.gCost n') (gc + 1) = true
          · rw [if_pos hupd] at h
            have hfresh : lookupPos st.gCost n' = none := by
              rcases holdn : lookupPos st.gCost n' with _ | old
              · rfl
              · exfalso
                rw [holdn] at hupd
                simp only [shouldUpd, decide_eq_true_eq] at hupd
                have := hw0 n' old hman holdn
                omega
            cases h
            set enew : Entry := (gc + 1 + manhattan n' goal, gc + 1, n')
              with henew
            have hn'start : n' ≠ start := by
              intro he
              rw [he, hinv.startG] at hfresh
              cases hfresh
            have hlookn' : lookupPos (insertPos st.gCost n' (gc + 1)) n'
                = some (gc + 1) := lookupPos_insert_self _ _ _
            have hlookold : ∀ c : Pos, c ≠ n' →
                lookupPos (insertPos st.gCost n' (gc + 1)) c
                  = lookupPos st.gCost c := by
              intro c hcne
              exact lookupPos_insert_ne _ _ _ _ (fun he => hcne he.symm)
            have hmono : ∀ c v, lookupPos st.gCost c = some v →
                lookupPos (insertPos st.gCost n' (gc + 1)) c = some v := by
              intro c v hv
              exact lookupPos_mono _ _ _ _ _ hfresh hv
            have hinvlook : ∀ c v,
                lookupPos (insertPos st.gCost n' (gc + 1)) c = some v →
                (c = n' ∧ v = gc + 1) ∨
                (c ≠ n' ∧ lookupPos st.gCost c = some v) := by
              intro c v hv
              by_cases hcn : c = n'
              · subst hcn
                rw [hlookn'] at hv
                exact Or.inl ⟨rfl, (Option.some.injEq _ _ ▸ hv).symm⟩
              · rw [hlookold c hcn] at hv
                exact Or.inr ⟨hcn, hv⟩
            have hopenne : ∀ e ∈ st.openSet, e.2.2 ≠ n' := by
              intro e he hee
              have := (hinv.ns e he).1
              rw [hee, hfresh] at this
              cases this
            have hpopsne : ∀ ep ∈ st.pops, ep.2.2 ≠ n' := by
              intro ep hep hee
              have := (hinv.popsNS ep hep).1
              rw [hee, hfresh] at this
              cases this
            have hpushesne : ∀ e ∈ st.pushes, e.2.2 ≠ n' := by
              intro e he hee
              have := (hinv.pushesNS e he).1
              rw [hee, hfresh] at this
              cases this
            have hparcur : gc % 2 = manhattan e0.2.2 start % 2 := by
              have := hinv.par e0.2.2 e0.2.1 hg0look
              omega
            have hkeyMnew : ∀ ep ∈ st.pops, keyLt ep enew := by
              intro ep hep
              have hchild : keyLt e0 enew :=
                keyLt_child hgc.symm hf0form (by rw [manhattan_comm]; exact hman)
              rcases hmax ep hep with heq | hlt
              · rw [heq]
                exact hchild
              · exact keyLt_trans hlt hchild
            have hw0' : ∀ n vn, manhattan n e0.2.2 = 1 →
                lookupPos (insertPos st.gCost n' (gc + 1)) n = some vn →
                vn ≤ e0.2.1 + 1 := by
              intro n vn hmann hvn
              rcases hinvlook n vn hvn with ⟨hn, hv⟩ | ⟨hn, hv⟩
              · omega
              · exact hw0 n vn hmann hv
            refine ⟨?_, rfl, hmono, hw0',
              fun _ => ⟨cval, rfl, fun hne1 => ⟨gc + 1, hlookn', by omega⟩⟩⟩
            refine ⟨?_, ?_, ?_, ?_, ?_, ?_, ?_, ?_, ?_, ?_, ?_,
              ?_, ?_, ?_, ?_, ?_, ?_, ?_, ?_, ?_⟩
            ·
              intro e he
              rcases List.mem_append.mp he with hee | hee
              · obtain ⟨hl, hform⟩ := hinv.ns e hee
                exact ⟨hmono _ _ hl, hform⟩
              · rw [List.mem_singleton.mp hee]
                exact ⟨hlookn', Or.inl rfl⟩
            ·
              rw [List.map_append, List.nodup_append]
              refine ⟨hinv.uniq, by simp, ?_⟩
              intro c hcm
              obtain ⟨e, he, hec⟩ := List.mem_map.mp hcm
              simp only [List.map_cons, List.map_nil, List.mem_singleton]
              intro hce
              exact hopenne e he (by rw [hec, hce])
            ·
              intro ep hep e he
              rcases List.mem_append.mp he with hee | hee
              · exact hinv.keyM ep hep e hee
              · rw [List.mem_singleton.mp hee]
                exact hkeyMnew ep hep
            ·
              intro ep hep
              obtain ⟨hl, hform⟩ := hinv.popsNS ep hep
              exact ⟨hmono _ _ hl, hform⟩
            · exact hinv.popsUniq
            ·
              intro ep hep e he
              rcases List.mem_append.mp he with hee | hee
              · exact hinv.popsNotOpen ep hep e hee
              · rw [List.mem_singleton.mp hee]
                exact fun hee2 => hpopsne ep hep hee2.symm
            · exact hinv.popsOrd
            ·
              intro c v hv
              rcases hinvlook c v hv with ⟨hn, hv2⟩ | ⟨hn, hv2⟩
              · subst hn
                have hpt : (manhattan n' e0.2.2 + manhattan e0.2.2 start) % 2
                    = manhattan n' start % 2 := manhattan_parity _ _ _
                omega
              · exact hinv.par c v hv2
            · exact hmono _ _ hinv.startG
            ·
              intro c v hv hne
              rcases hinvlook c v hv with ⟨hn, hv2⟩ | ⟨hn, hv2⟩
              · omega
              · exact hinv.gpos c v hv2 hne
            ·
              intro c v hv hne
              rcases hinvlook c v hv with ⟨hn, hv2⟩ | ⟨hn, hv2⟩
              · subst hn
                refine ⟨e0.2.2, ?_, hman, ?_, e0, he0, rfl, by omega⟩
                · exact lookupPos_insert_self _ _ _
                · have : v - 1 = gc := by omega
                  rw [this]
                  exact hmono _ _ hg
              · obtain ⟨p, hp1, hp2, hp3, ep, hep, hep1, hep2⟩ :=
                  hinv.cf c v hv2 hne
                refine ⟨p, ?_, hp2, hmono _ _ hp3, ep, hep, hep1, hep2⟩
                rw [lookupPos_insert_ne _ _ _ _ (fun he => hn he.symm)]
                exact hp1
            ·
              intro e he n vn hmann hvn
              rcases hinvlook n vn hvn with ⟨hn, hv2⟩ | ⟨hn, hv2⟩
              · subst hn
                rcases List.mem_append.mp he with hee | hee
                · have hke : keyLt e0 e := hinv.keyM e0 he0 e hee
                  obtain ⟨hel, hef⟩ := hinv.ns e hee
                  have hpe : e.2.1 % 2 = manhattan e.2.2 start % 2 :=
                    hinv.par e.2.2 e.2.1 hel
                  have hp0 : e0.2.1 % 2 = manhattan e0.2.2 start % 2 :=
                    hinv.par e0.2.2 e0.2.1 hg0look
                  have hmm : manhattan e0.2.2 e.2.2 ≤ 2 := by
                    have h1 := manhattan_triangle e0.2.2 n' e.2.2
                    have h2 : manhattan e0.2.2 n' = manhattan n' e0.2.2 :=
                      manhattan_comm _ _
                    omega
                  have hmp : manhattan e0.2.2 e.2.2 % 2 = 0 := by
                    have h1 := manhattan_parity e0.2.2 n' e.2.2
                    have h2 : manhattan e0.2.2 n' = manhattan n' e0.2.2 :=
                      manhattan_comm _ _
                    omega
                  have := key_g_le hf0form hef hp0 hpe hmm hmp hke
                  omega
                · rw [List.mem_singleton.mp hee] at hmann
                  rw [manhattan_self] at hmann
                  cases hmann
              · rcases List.mem_append.mp he with hee | hee
                · exact hinv.wBound e hee n vn hmann hv2
                · rw [List.mem_singleton.mp hee]
                  have hm2 : manhattan n e0.2.2 ≤ 2 := by
                    rw [List.mem_singleton.mp hee] at hmann
                    have h1 := manhattan_triangle n n' e0.2.2
                    simp only at hmann
                    omega
                  have := popMax_neighbor_bound hinv he0 hmax hv2 hm2
                  simp only
                  omega
            ·
              intro e he
              rcases List.mem_append.mp he with hee | hee
              · obtain ⟨hl, hform⟩ := hinv.pushesNS e hee
                exact ⟨hmono _ _ hl, hform⟩
              · rw [List.mem_singleton.mp hee]
                exact ⟨hlookn', Or.inl rfl⟩
            ·
              rw [List.map_append, List.nodup_append]
              refine ⟨hinv.pushesUniq, by simp, ?_⟩
              intro c hcm
              obtain ⟨e, he, hec⟩ := List.mem_map.mp hcm
              simp only [List.map_cons, List.map_nil, List.mem_singleton]
              intro hce
              exact hpushesne e he (by rw [hec, hce])
            ·
              have h1 : (st.pushes ++ [enew]).Perm
                  ((st.openSet ++ st.pops) ++ [enew]) :=
                hinv.pushesPerm.append_right _
              have h2 : ((st.openSet ++ st.pops) ++ [enew]).Perm
                  ((st.openSet ++ [enew]) ++ st.pops) := by
                rw [List.append_assoc, List.append_assoc]
                exact List.Perm.append_left _ (List.perm_append_comm)
              exact h1.trans h2
            ·
              intro c v hv
              rcases hinvlook c v hv with ⟨hn, hv2⟩ | ⟨hn, hv2⟩
              · exact ⟨enew, List.mem_append_right _ (List.mem_singleton_self _),
                  hn.symm⟩
              · obtain ⟨e, he, hec⟩ := hinv.domPushed c v hv2
                exact ⟨e, List.mem_append_left _ he, hec⟩
            ·
              intro c v hv hne
              rcases hinvlook c v hv with ⟨hn, hv2⟩ | ⟨hn, hv2⟩
              · subst hn
                refine ⟨hb, cval, hc, ?_⟩
                intro hcv
                apply h1
                rw [hcv]
                rfl
              · exact hinv.freeCells c v hv2 hne
            ·
              intro ep hep hexcl n hmann hbn hfn
              obtain ⟨vn, hvn, hvnle⟩ :=
                hinv.expanded ep hep hexcl n hmann hbn hfn
              exact ⟨vn, hmono _ _ hvn, hvnle⟩
            ·
              rw [insertPos_keys_of_none _ _ _ hfresh, List.nodup_append]
              refine ⟨hinv.keysNodup, by simp, ?_⟩
              intro c hcm
              simp only [List.mem_singleton]
              intro hce
              subst hce
              exact (lookupPos_eq_none_iff _ _).mp hfresh hcm
            ·
              intro c hcm
              rw [insertPos_keys_of_none _ _ _ hfresh] at hcm
              rcases List.mem_append.mp hcm with hcc | hcc
              · exact hinv.keysDom c hcc
              · rw [List.mem_singleton.mp hcc]
                exact Or.inr hb
          · rw [if_neg hupd] at h
            cases h
            refine ⟨hinv, rfl, fun c v hv => hv, hw0, ?_⟩
            intro _
            refine ⟨cval, rfl, ?_⟩
            intro hne1
            simp only [shouldUpd] at hupd
            rcases holdn : lookupPos st.gCost n' with _ | old
            · rw [holdn] at hupd
              simp at hupd
            · rw [holdn] at hupd
              simp only [decide_eq_true_eq] at hupd
              exact ⟨old, rfl, by omega⟩

/-- Folding direction steps preserves the bundle and yields the
processed-neighbour guarantee for every direction in the list. -/
theorem foldlM_stepDir_ninv {grid : Grid} {W H : Int} {goal start : Pos}
    {e0 : Entry} :
    ∀ (l : List Pos) (st st' : AState),
    (∀ d ∈ l, d ∈ directions) →
    NInvA grid W H goal start [e0] st →
    e0 ∈ st.pops →
    (∀ ep ∈ st.pops, ep = e0 ∨ keyLt ep e0) →
    (∀ n vn, manhattan n e0.2.2 = 1 → lookupPos st.gCost n = some vn →
      vn ≤ e0.2.1 + 1) →
    (l.foldlM (stepDir grid W H goal e0.2.2) st : Option AState) = some st' →
    NInvA grid W H goal start [e0] st' ∧
    st'.pops = st.pops ∧
    (∀ c v, lookupPos st.gCost c = some v → lookupPos st'.gCost c = some v) ∧
    (∀ d ∈ l, (0 ≤ e0.2.2.1 + d.1 ∧ e0.2.2.1 + d.1 < W ∧
      0 ≤ e0.2.2.2 + d.2 ∧ e0.2.2.2 + d.2 < H) →
      ∃ cv, cellAt grid (e0.2.2.1 + d.1) (e0.2.2.2 + d.2) = some cv ∧
      (¬ cv = 1 → ∃ vn, lookupPos st'.gCost (e0.2.2.1 + d.1, e0.2.2.2 + d.2)
        = some vn ∧ vn ≤ e0.2.1 + 1)) := by
  intro l
  induction l with
  | nil =>
      intro st st' _ hinv he0 hmax hw0 h
      simp only [List.foldlM_nil] at h
      cases h
      exact ⟨hinv, rfl, fun c v hv => hv,
        fun d hd => absurd hd (List.not_mem_nil _)⟩
  | cons d rest ih =>
      intro st st' hmem hinv he0 hmax hw0 h
      simp only [List.foldlM_cons] at h
      rcases hstep : stepDir grid W H goal e0.2.2 st d with _ | st1
      · rw [hstep] at h
        simp at h
      · rw [hstep] at h
        simp only [Option.bind_eq_bind, Option.some_bind] at h
        obtain ⟨hinv1, hpops1, hmono1, hw01, hproc1⟩ :=
          stepDir_ninv (hmem d (List.mem_cons_self _ _)) hinv he0 hmax hw0 hstep
        obtain ⟨hinv2, hpops2, hmono2, hproc2⟩ :=
          ih st1 st' (fun d' hd' => hmem d' (List.mem_cons_of_mem _ hd'))
            hinv1 (by rw [hpops1]; exact he0)
            (by rw [hpops1]; exact hmax) hw01 h
        refine ⟨hinv2, hpops2.trans hpops1,
          fun c v hv => hmono2 _ _ (hmono1 _ _ hv), ?_⟩
        intro d' hd' hbb
        rcases List.mem_cons.mp hd' with hdd | hdd
        · subst hdd
          obtain ⟨cv, hcv, himp⟩ := hproc1 hbb
          refine ⟨cv, hcv, ?_⟩
          intro hne1
          obtain ⟨vn, h1, h2⟩ := himp hne1
          exact ⟨vn, hmono2 _ _ h1, h2⟩
        · exact hproc2 d' hdd hbb

/-- After all four directions are folded, the popped entry has been fully
expanded and the exception can be dropped. -/
theorem ninv_drop_excl {grid : Grid} {W H : Int} {goal start : Pos}
    {e0 : Entry} {st : AState}
    (hinv : NInvA grid W H goal start [e0] st)
    (hproc : ∀ d ∈ directions, (0 ≤ e0.2.2.1 + d.1 ∧ e0.2.2.1 + d.1 < W ∧
      0 ≤ e0.2.2.2 + d.2 ∧ e0.2.2.2 + d.2 < H) →
      ∃ cv, cellAt grid (e0.2.2.1 + d.1) (e0.2.2.2 + d.2) = some cv ∧
      (¬ cv = 1 → ∃ vn, lookupPos st.gCost (e0.2.2.1 + d.1, e0.2.2.2 + d.2)
        = some vn ∧ vn ≤ e0.2.1 + 1)) :
    NInv grid W H goal start st := by
  refine ⟨hinv.ns, hinv.uniq, hinv.keyM, hinv.popsNS, hinv.popsUniq,
    hinv.popsNotOpen, hinv.popsOrd, hinv.par, hinv.startG, hinv.gpos,
    hinv.cf, hinv.wBound, hinv.pushesNS, hinv.pushesUniq, hinv.pushesPerm,
    hinv.domPushed, hinv.freeCells, ?_, hinv.keysNodup, hinv.keysDom⟩
  intro ep hep _ n hman hb hfree
  by_cases hee : ep = e0
  · subst hee
    obtain ⟨d, hd, hnd⟩ := adjacent_eq_dir_step n ep.2.2 hman
    rw [hnd] at hb
    obtain ⟨cv, hcv, himp⟩ := hproc d hd (by exact hb)
    rw [hnd] at hfree
    have hne1 : ¬ cv = 1 := hfree cv hcv
    obtain ⟨vn, h1, h2⟩ := himp hne1
    rw [hnd]
    exact ⟨vn, h1, h2⟩
  · exact hinv.expanded ep hep (by simp [hee]) n hman hb hfree

theorem popMin_eq_none {l : List Entry} (h : popMin l = none) : l = [] := by
  match l with
  | [] => rfl
  | x :: xs => simp [popMin] at h

/-- The main loop preserves the invariant bundle: on exit, either the
frontier was exhausted with the bundle intact and the goal never popped,
or the goal was popped on the final iteration from a bundle-satisfying
pre-state. -/
theorem astarLoop_ninv {grid : Grid} {W H : Int} {goal start : Pos} :
    ∀ (fuel : Nat) (st stF : AState),
    NInv grid W H goal start st →
    (∀ ep ∈ st.pops, ep.2.2 ≠ goal) →
    astarLoop grid W H goal fuel st = some stF →
    (NInv grid W H goal start stF ∧ stF.openSet = [] ∧
      (∀ ep ∈ stF.pops, ep.2.2 ≠ goal)) ∨
    (∃ stPre e rest, NInv grid W H goal start stPre ∧
      (∀ ep ∈ stPre.pops, ep.2.2 ≠ goal) ∧
      popMin stPre.openSet = some (e, rest) ∧ e.2.2 = goal ∧
      stF = { stPre with openSet := rest,
                         expansions := stPre.expansions + 1,
                         pops := stPre.pops ++ [e] }) := by
  intro fuel
  induction fuel with
  | zero => intro st stF _ _ h; cases h
  | succ k ih =>
      intro st stF hinv hgnp h
      unfold astarLoop at h
      rcases hp : popMin st.openSet with _ | er
      · rw [hp] at h
        cases h
        exact Or.inl ⟨hinv, popMin_eq_none hp, hgnp⟩
      · obtain ⟨e, rest⟩ := er
        rw [hp] at h
        dsimp only at h
        by_cases hgoal : e.2.2 = goal
        · rw [if_pos hgoal] at h
          cases h
          exact Or.inr ⟨st, e, rest, hinv, hgnp, hp, hgoal, rfl⟩
        · rw [if_neg hgoal] at h
          rcases hf : (directions.foldlM (stepDir grid W H goal e.2.2)
              { st with openSet := rest, expansions := st.expansions + 1,
                        pops := st.pops ++ [e] } : Option AState) with _ | st2
          · rw [hf] at h
            simp at h
          · rw [hf] at h
            simp only [Option.some_bind] at h
            obtain ⟨hinv1, hmax1, hw01, hemem⟩ := popStep_ninv hinv hp
            obtain ⟨hinv2, hpops2, hmono2, hproc2⟩ :=
              foldlM_stepDir_ninv directions _ st2 (fun d hd => hd) hinv1
                (List.mem_append_right _ (List.mem_singleton_self _))
                hmax1 hw01 hf
            have hinv2' : NInv grid W H goal start st2 :=
              ninv_drop_excl hinv2 hproc2
            have hgnp2 : ∀ ep ∈ st2.pops, ep.2.2 ≠ goal := by
              rw [hpops2]
              intro ep hep
              rcases List.mem_append.mp hep with hh | hh
              · exact hgnp ep hh
              · rw [List.mem_singleton.mp hh]
                exact hgoal
            exact ih st2 stF hinv2' hgnp2 h

/-- The back-pointer walk: `Walk cf start node s` says the reconstruction
loop starting at `node` appends exactly the nodes of `s` before reaching
`start`. -/
inductive Walk (cf : List (Pos × Pos)) (start : Pos) : Pos → List Pos → Prop
  | nil : Walk cf start start []
  | cons (node q : Pos) (rest : List Pos) (hne : node ≠ start)
      (hq : lookupPos cf node = some q) (hw : Walk cf start q rest) :
      Walk cf start node (node :: rest)

theorem reconLoop_walk (cf : List (Pos × Pos)) (start : Pos) :
    ∀ (fuel : Nat) (node : Pos) (acc accF : List Pos),
    reconLoop cf start fuel node acc = some accF →
    ∃ s, accF = acc ++ s ∧ Walk cf start node s := by
  intro fuel
  induction fuel with
  | zero => intro node acc accF h; cases h
  | succ k ih =>
      intro node acc accF h
      unfold reconLoop at h
      by_cases hn : node = start
      · rw [if_pos hn] at h
        cases h
        exact ⟨[], by simp, by subst hn; exact Walk.nil⟩
      · rw [if_neg hn] at h
        rcases hq : lookupPos cf node with _ | q
        · rw [hq] at h; cases h
        · rw [hq] at h
          obtain ⟨s, hs, hw⟩ := ih q (acc ++ [node]) accF h
          exact ⟨node :: s, by simp [hs], Walk.cons node q s hn hq hw⟩

/-- One link of the reconstructed path: a unit move whose recorded g cost
strictly decreases. -/
def PathLink (gcost : List (Pos × Nat)) (a b : Pos) : Prop :=
  manhattan a b = 1 ∧
  ∃ ga gb, lookupPos gcost a = some ga ∧ lookupPos gcost b = some gb ∧ gb < ga

theorem walk_chain (cf : List (Pos × Pos)) (gcost : List (Pos × Nat))
    (start : Pos)
    (hbp : ∀ n q, lookupPos cf n = some q →
      manhattan n q = 1 ∧
      ∃ gn gq, lookupPos gcost n = some gn ∧ lookupPos gcost q = some gq ∧ gq < gn) :
    ∀ node s, Walk cf start node s →
      List.Chain' (PathLink gcost) (s ++ [start]) ∧
      (s ++ [start]).head? = some node := by
  intro node s hw
  induction hw with
  | nil => exact ⟨List.chain'_singleton _, rfl⟩
  | cons node q rest hne hq hwq ih =>
      obtain ⟨ihc, ihh⟩ := ih
      constructor
      · rw [List.cons_append, List.chain'_cons']
        refine ⟨?_, ihc⟩
        intro b hb
        rw [ihh] at hb
        cases hb
        exact hbp node q hq
      · rfl

/-- The g-decrease component of a path link. -/
def GDrop (gcost : List (Pos × Nat)) (a b : Pos) : Prop :=
  ∃ ga gb, lookupPos gcost a = some ga ∧ lookupPos gcost b = some gb ∧ gb < ga

/-- The recorded g cost strictly decreases along a linked chain, so the
chain visits pairwise distinct coordinates. -/
theorem chain_pathLink_nodup (gcost : List (Pos × Nat)) (l : List Pos)
    (h : List.Chain' (PathLink gcost) l) : l.Nodup := by
  letI : IsTrans Pos (GDrop gcost) := ⟨by
    rintro a b c ⟨ga, gb, ha, hb, h1⟩ ⟨gb', gc, hb', hc, h2⟩
    rw [hb] at hb'
    cases hb'
    exact ⟨ga, gc, ha, hc, by omega⟩⟩
  letI : IsIrrefl Pos (GDrop gcost) := ⟨by
    rintro a ⟨ga, gb, ha, hb, h1⟩
    rw [ha] at hb
    cases hb
    omega⟩
  have hg : List.Chain' (GDrop gcost) l := h.imp (fun _ _ hp => hp.2)
  exact (List.chain'_iff_pairwise.mp hg).nodup

/-- C2: whenever a_star_search returns a non-none path p, consecutive
coordinates of p differ by exactly one cardinal unit step (Manhattan
distance 1), no coordinate occurs twice, the first element is start, and
the last element is the resolved goal. -/
theorem c2_path_validity (fuel : Nat) (grid : Grid) (start goal0 : Pos)
    (r : AResult) (p : List Pos)
    (hrun : a_star_search fuel grid start goal0 = some r)
    (hpath : r.path = some p) :
    List.Chain' (fun a b => manhattan a b = 1) p ∧
    p.Nodup ∧
    p.head? = some start ∧
    ∃ goal, resolveGoal grid start goal0 = some (some goal) ∧
      p.getLast? = some goal := by
  unfold a_star_search at hrun
  rcases hrow : grid.head? with _ | row0
  · rw [hrow] at hrun; cases hrun
  · rw [hrow] at hrun
    simp only [Option.bind_eq_bind, Option.some_bind] at hrun
    rcases hres : resolveGoal grid start goal0 with _ | gr
    · rw [hres] at hrun; cases hrun
    · rw [hres] at hrun
      simp only [Option.bind_eq_bind, Option.some_bind] at hrun
      rcases gr with _ | goal
      · dsimp only at hrun
        cases hrun
        simp at hpath
      · dsimp only at hrun
        rcases hloop : astarLoop grid (row0.length : Int) (grid.length : Int)
            goal fuel (initState start) with _ | stF
        · rw [hloop] at hrun; cases hrun
        · rw [hloop] at hrun
          simp only [Option.bind_eq_bind, Option.some_bind] at hrun
          have hinv : ChainInv stF :=
            astarLoop_chainInv fuel _ stF hloop (chainInv_init start)
          by_cases hc1 : lookupPos stF.cameFrom goal = none ∧ ¬ start = goal
          · rw [if_pos hc1] at hrun
            cases hrun
            simp at hpath
          · rw [if_neg hc1] at hrun
            by_cases hc2 : start = goal
            · rw [if_pos hc2] at hrun
              cases hrun
              simp only at hpath
              cases hpath
              refine ⟨List.chain'_singleton _, List.nodup_singleton _, rfl,
                goal, rfl, ?_⟩
              rw [hc2]
              rfl
            · rw [if_neg hc2] at hrun
              rcases hrec : reconLoop stF.cameFrom start fuel goal [] with _ | acc
              · rw [hrec] at hrun; cases hrun
              · rw [hrec] at hrun
                simp only [Option.bind_eq_bind, Option.some_bind] at hrun
                cases hrun
                simp only at hpath
                cases hpath
                obtain ⟨s, hs, hw⟩ :=
                  reconLoop_walk stF.cameFrom start fuel goal [] acc hrec
                rw [List.nil_append] at hs
                subst hs
                obtain ⟨hchain, hhead⟩ :=
                  walk_chain stF.cameFrom stF.gCost start hinv goal acc hw
                refine ⟨?_, ?_, ?_, goal, rfl, ?_⟩
                · rw [List.chain'_reverse]
                  refine hchain.imp ?_
                  intro a b hp
                  show manhattan b a = 1
                  rw [manhattan_comm]
                  exact hp.1
                · rw [List.nodup_reverse]
                  exact chain_pathLink_nodup stF.gCost _ hchain
                · rw [List.head?_reverse]
                  exact List.getLast?_concat _
                · rw [List.getLast?_reverse]
                  exact hhead

/-- C2 witness: a concrete run on a 3x3 grid with a wall, whose returned
path is checked against all four properties. -/
theorem c2_path_validity_witness :
    List.Chain' (fun a b => manhattan a b = 1)
      [((0 : Int), (0 : Int)), (0, 1), (0, 2), (1, 2), (2, 2), (2, 1), (2, 0)] ∧
    List.Nodup [((0 : Int), (0 : Int)), (0, 1), (0, 2), (1, 2), (2, 2), (2, 1), (2, 0)] ∧
    List.head? [((0 : Int), (0 : Int)), (0, 1), (0, 2), (1, 2), (2, 2), (2, 1), (2, 0)]
      = some (0, 0) ∧
    ∃ goal, resolveGoal [[0, 1, 0], [0, 1, 0], [0, 0, 0]] (0, 0) (2, 0)
        = some (some goal) ∧
      List.getLast? [((0 : Int), (0 : Int)), (0, 1), (0, 2), (1, 2), (2, 2), (2, 1), (2, 0)]
        = some goal :=
  c2_path_validity 50 [[0, 1, 0], [0, 1, 0], [0, 0, 0]] (0, 0) (2, 0)
    ⟨some [(0, 0), (0, 1), (0, 2), (1, 2), (2, 2), (2, 1), (2, 0)], some 6, 7⟩
    [(0, 0), (0, 1), (0, 2), (1, 2), (2, 2), (2, 1), (2, 0)] (by rfl) rfl

/-! ## Claim C10: add_obstacle / is_free reader-writer agreement -/

/-- C10: the claim says that after add_obstacle(grid, x, y) the query
is_free(grid, x, y) returns false.  The code disagrees: add_obstacle writes
grid[y][x] while is_free reads grid[x][y].  On create_grid(2, 2), after
add_obstacle at (x, y) = (0, 1), is_free(grid, 0, 1) reads the untouched
transposed cell and returns True; and on the non-square create_grid(3, 2),
after add_obstacle at (2, 0), is_free(grid, 2, 0) raises IndexError
(modelled as none) because row index 2 is out of range. -/
theorem c10_is_free_disagrees_with_add_obstacle :
    ((add_obstacle (create_grid 2 2) 0 1).bind (fun g => is_free g 0 1)
        = some true) ∧
    ((add_obstacle (create_grid 3 2) 2 0).bind (fun g => is_free g 2 0)
        = none) := by decide

/-! ## Claim C9: grid builder range checking -/

/-- A rectangular width x height grid. -/
def Rect (g : Grid) (width height : Nat) : Prop :=
  g.length = height ∧ ∀ row ∈ g, row.length = width

theorem create_grid_rect (w h : Nat) : Rect (create_grid w h) w h := by
  refine ⟨by simp [create_grid], ?_⟩
  intro row hrow
  rw [List.eq_of_mem_replicate hrow]
  simp

theorem create_grid_cell (w h : Nat) (x y : Int)
    (hx0 : 0 ≤ x) (hxw : x < (w : Int)) (hy0 : 0 ≤ y) (hyh : y < (h : Int)) :
    cellAt (create_grid w h) x y = some 0 := by
  unfold cellAt create_grid
  rw [pyNth_in_range _ _ hy0 (by simpa using hyh)]
  rw [List.getElem?_replicate_of_lt (by omega)]
  simp only [Option.some_bind]
  rw [pyNth_in_range _ _ hx0 (by simpa using hxw)]
  rw [List.getElem?_replicate_of_lt (by omega)]

theorem add_obstacle_rect {g g' : Grid} {w h : Nat} {x y : Int}
    (hr : Rect g w h) (hadd : add_obstacle g x y = some g') : Rect g' w h := by
  unfold add_obstacle at hadd
  rcases hrow : pyNth g y with _ | row
  · rw [hrow] at hadd; cases hadd
  · rw [hrow] at hadd
    simp only [Option.bind_eq_bind, Option.some_bind] at hadd
    rcases hset : pySet row x 1 with _ | row'
    · rw [hset] at hadd; cases hadd
    · rw [hset] at hadd
      simp only [Option.some_bind] at hadd
      obtain ⟨j, hj, rfl⟩ := pySet_spec _ _ _ _ hadd
      obtain ⟨jr, hjr, rfl⟩ := pySet_spec _ _ _ _ hset
      have hrowmem : row ∈ g := by
        by_cases hb : -(g.length : Int) ≤ y ∧ y < (g.length : Int)
        · obtain ⟨a, ha, hmem⟩ := pyNth_total g y hb.1 hb.2
          rw [hrow] at ha
          cases ha
          exact hmem
        · rw [pyNth_oor _ _ (by omega)] at hrow
          cases hrow
      refine ⟨by simpa using hr.1, ?_⟩
      intro r' hr'
      rcases List.mem_or_eq_of_mem_set hr' with hmem | rfl
      · exact hr.2 r' hmem
      · simpa using hr.2 row hrowmem

theorem add_obstacle_in_range {g : Grid} {w h : Nat} {x y : Int}
    (hr : Rect g w h) (hx0 : 0 ≤ x) (hxw : x < (w : Int))
    (hy0 : 0 ≤ y) (hyh : y < (h : Int)) :
    ∃ g', add_obstacle g x y = some g' ∧ Rect g' w h ∧
      ∀ x' y' : Int, 0 ≤ x' → x' < (w : Int) → 0 ≤ y' → y' < (h : Int) →
        cellAt g' x' y' = if x' = x ∧ y' = y then some 1 else cellAt g x' y' := by
  have hylen : y < (g.length : Int) := by
    rw [hr.1]; exact_mod_cast hyh
  have hytn : y.toNat < g.length := by omega
  have hrowlen : g[y.toNat].length = w := hr.2 _ (List.getElem_mem _)
  have hxlen : x < (g[y.toNat].length : Int) := by rw [hrowlen]; exact_mod_cast hxw
  have hxtn : x.toNat < g[y.toNat].length := by omega
  have hrow : pyNth g y = some g[y.toNat] := by
    rw [pyNth_in_range _ _ hy0 hylen, List.getElem?_eq_getElem hytn]
  have hset : pySet g[y.toNat] x 1 = some (g[y.toNat].set x.toNat 1) :=
    pySet_in_range _ _ _ hx0 hxlen
  have hset2 : pySet g y (g[y.toNat].set x.toNat 1)
      = some (g.set y.toNat (g[y.toNat].set x.toNat 1)) :=
    pySet_in_range _ _ _ hy0 hylen
  have hadd : add_obstacle g x y = some (g.set y.toNat (g[y.toNat].set x.toNat 1)) := by
    unfold add_obstacle
    rw [hrow]
    simp only [Option.bind_eq_bind, Option.some_bind]
    rw [hset]
    simp only [Option.some_bind]
    exact hset2
  refine ⟨_, hadd, add_obstacle_rect hr hadd, ?_⟩
  intro x' y' hx'0 hx'w hy'0 hy'h
  have hy'len : y' < (g.length : Int) := by rw [hr.1]; exact_mod_cast hy'h
  have hy'tn : y'.toNat < g.length := by omega
  unfold cellAt
  rw [pyNth_in_range _ _ hy'0 (by simpa using hy'len),
      pyNth_in_range _ _ hy'0 hy'len]
  by_cases hyy : y' = y
  · subst hyy
    rw [List.getElem?_set_self (by simpa using hy'tn),
        List.getElem?_eq_getElem hy'tn]
    simp only [Option.some_bind]
    have hrowlen' : g[y'.toNat].length = w := hr.2 _ (List.getElem_mem _)
    have hx'len : x' < (g[y'.toNat].length : Int) := by
      rw [hrowlen']; exact_mod_cast hx'w
    rw [pyNth_in_range _ _ hx'0 (by simpa using hx'len),
        pyNth_in_range _ _ hx'0 hx'len]
    by_cases hxx : x' = x
    · subst hxx
      rw [List.getElem?_set_self (by omega)]
      simp
    · rw [List.getElem?_set_ne (by omega)]
      simp [hxx]
  · rw [List.getElem?_set_ne (by omega), List.getElem?_eq_getElem hy'tn]
    simp only [Option.some_bind]
    rw [if_neg (by tauto)]

theorem add_obstacle_oor {g : Grid} {w h : Nat} {x y : Int}
    (hr : Rect g w h)
    (hoor : x < -(w : Int) ∨ (w : Int) ≤ x ∨ y < -(h : Int) ∨ (h : Int) ≤ y) :
    add_obstacle g x y = none := by
  unfold add_obstacle
  by_cases hy : y < -(h : Int) ∨ (h : Int) ≤ y
  · rw [pyNth_oor _ _ (by rw [hr.1]; omega)]
    rfl
  · obtain ⟨row, hrow, hmem⟩ := pyNth_total g y
      (by rw [hr.1]; omega) (by rw [hr.1]; omega)
    rw [hrow]
    simp only [Option.bind_eq_bind, Option.some_bind]
    have hx : x < -(w : Int) ∨ (w : Int) ≤ x := by tauto
    rw [pySet_oor _ _ _ (by rw [hr.2 row hmem]; omega)]
    rfl

theorem foldl_add_obstacle_ok {w h : Nat} :
    ∀ (coords : List (Int × Int)) (g : Grid), Rect g w h →
    (∀ c ∈ coords, 0 ≤ c.1 ∧ c.1 < (w : Int) ∧ 0 ≤ c.2 ∧ c.2 < (h : Int)) →
    ∃ g', (coords.foldlM (fun gg c => add_obstacle gg c.1 c.2) g : Option Grid)
        = some g' ∧
      Rect g' w h ∧
      ∀ x y : Int, 0 ≤ x → x < (w : Int) → 0 ≤ y → y < (h : Int) →
        ((x, y) ∈ coords → cellAt g' x y = some 1) ∧
        ((x, y) ∉ coords → cellAt g' x y = cellAt g x y) := by
  intro coords
  induction coords with
  | nil =>
      intro g hr _
      exact ⟨g, by simp, hr, fun x y _ _ _ _ =>
        ⟨fun hmem => absurd hmem (List.not_mem_nil _), fun _ => rfl⟩⟩
  | cons c cs ih =>
      intro g hr hin
      have hc := hin c (List.mem_cons_self _ _)
      obtain ⟨g1, hadd, hr1, hcell1⟩ :=
        add_obstacle_in_range hr hc.1 hc.2.1 hc.2.2.1 hc.2.2.2
      obtain ⟨g', hfold, hr', hcell'⟩ :=
        ih g1 hr1 (fun c' h' => hin c' (List.mem_cons_of_mem _ h'))
      refine ⟨g', ?_, hr', ?_⟩
      · simp only [List.foldlM_cons, hadd, Option.bind_eq_bind, Option.some_bind]
        exact hfold
      · intro x y hx0 hxw hy0 hyh
        have h1 := hcell1 x y hx0 hxw hy0 hyh
        have h2 := hcell' x y hx0 hxw hy0 hyh
        constructor
        · intro hmem
          rcases List.mem_cons.mp hmem with he | hm
          · by_cases hmcs : (x, y) ∈ cs
            · exact h2.1 hmcs
            · rw [h2.2 hmcs, h1, if_pos ?_]
              obtain ⟨he1, he2⟩ := Prod.mk.injEq .. ▸ he
              exact ⟨by rw [he1], by rw [he2]⟩
          · exact h2.1 hm
        · intro hnmem
          have hncs : (x, y) ∉ cs := fun hm => hnmem (List.mem_cons_of_mem _ hm)
          have hnc : ¬(x = c.1 ∧ y = c.2) := by
            rintro ⟨rfl, rfl⟩
            exact hnmem (by simp [List.mem_cons])
          rw [h2.2 hncs, h1, if_neg hnc]

theorem foldl_add_obstacle_oor {w h : Nat} :
    ∀ (coords : List (Int × Int)) (g : Grid), Rect g w h →
    (∃ c ∈ coords, c.1 < -(w : Int) ∨ (w : Int) ≤ c.1 ∨
      c.2 < -(h : Int) ∨ (h : Int) ≤ c.2) →
    (coords.foldlM (fun gg c => add_obstacle gg c.1 c.2) g : Option Grid) = none := by
  intro coords
  induction coords with
  | nil =>
      intro g _ hex
      obtain ⟨c, hc, _⟩ := hex
      exact absurd hc (List.not_mem_nil _)
  | cons c cs ih =>
      intro g hr hex
      rcases hadd : add_obstacle g c.1 c.2 with _ | g1
      · simp [List.foldlM_cons, hadd]
      · obtain ⟨c', hc'mem, hoor⟩ := hex
        rcases List.mem_cons.mp hc'mem with rfl | hm
        · rw [add_obstacle_oor hr hoor] at hadd
          cases hadd
        · simp only [List.foldlM_cons, hadd, Option.bind_eq_bind, Option.some_bind]
          exact ih g1 (add_obstacle_rect hr hadd) ⟨c', hm, hoor⟩

/-- C9 amended: in-range shelf coordinates build successfully and mark
exactly the listed cells as shelves with every other cell an aisle, but a
coordinate at or beyond width/height (or below the negative wrap range)
fails with an IndexError rather than a named InvalidCoordinate error, and
negative coordinates within the wrap range are not rejected at all (they
mark the wrapped cell, see the counterexample). -/
theorem c9_amended_build (width height : Nat) (coords : List (Int × Int)) :
    ((∀ c ∈ coords, 0 ≤ c.1 ∧ c.1 < (width : Int) ∧ 0 ≤ c.2 ∧ c.2 < (height : Int)) →
      ∃ g, build width height coords = some g ∧
        ∀ x y : Int, 0 ≤ x → x < (width : Int) → 0 ≤ y → y < (height : Int) →
          cellAt g x y = some (if (x, y) ∈ coords then 1 else 0)) ∧
    ((∃ c ∈ coords, c.1 < -(width : Int) ∨ (width : Int) ≤ c.1 ∨
        c.2 < -(height : Int) ∨ (height : Int) ≤ c.2) →
      build width height coords = none) := by
  constructor
  · intro hin
    obtain ⟨g, hfold, _, hcell⟩ :=
      foldl_add_obstacle_ok coords (create_grid width height)
        (create_grid_rect width height) hin
    refine ⟨g, hfold, ?_⟩
    intro x y hx0 hxw hy0 hyh
    have h := hcell x y hx0 hxw hy0 hyh
    by_cases hmem : (x, y) ∈ coords
    · rw [if_pos hmem]
      exact h.1 hmem
    · rw [if_neg hmem, h.2 hmem]
      exact create_grid_cell width height x y hx0 hxw hy0 hyh
  · intro hex
    exact foldl_add_obstacle_oor coords (create_grid width height)
      (create_grid_rect width height) hex

/-- C9 amended witness: build 2 2 [(0, 1)] succeeds marking exactly (0, 1),
and build 2 2 [(5, 0)] fails. -/
theorem c9_amended_build_witness :
    (∃ g, build 2 2 [((0 : Int), (1 : Int))] = some g ∧
      ∀ x y : Int, 0 ≤ x → x < (2 : Int) → 0 ≤ y → y < (2 : Int) →
        cellAt g x y = some (if (x, y) ∈ [((0 : Int), (1 : Int))] then 1 else 0)) ∧
    build 2 2 [((5 : Int), (0 : Int))] = none :=
  ⟨(c9_amended_build 2 2 [(0, 1)]).1 (by decide),
   (c9_amended_build 2 2 [(5, 0)]).2 ⟨(5, 0), by decide, by decide⟩⟩

/-- C9 counterexample: the shelf coordinate (-1, 0) lies outside
[0,3)x[0,2), so the claim says construction fails with InvalidCoordinate;
instead Python's negative indexing wraps around, the build succeeds, and
the cell (2, 0) is marked as a shelf. -/
theorem c9_negative_coordinate_not_rejected :
    build 3 2 [(-1, 0)] = some [[0, 0, 1], [0, 0, 0]] ∧
    cellAt [[0, 0, 1], [0, 0, 0]] 2 0 = some 1 := by decide

/-! ## Claim C8: rejection of a start on a shelf cell -/

/-- C8 counterexample: start (0, 0) lies on a Shelf cell of the grid
[[1, 0]], yet a_star_search is not rejected with any error: it runs the
search from the obstacle and returns the path [(0,0), (1,0)] with cost 1
and 2 expansions. -/
theorem c8_shelf_start_not_rejected :
    cellAt [[1, 0]] 0 0 = some 1 ∧
    a_star_search 10 [[1, 0]] (0, 0) (1, 0) =
      some ⟨some [(0, 0), (1, 0)], some 1, 2⟩ := by decide

/-- C8 amended: a_star_search performs no start validation at all — a call
whose start lies on a Shelf cell proceeds to search from the obstacle and
can return a normal result whose path begins on the shelf cell. -/
theorem c8_amended_search_proceeds_from_shelf_start :
    ∃ (grid : Grid) (start goal : Pos) (r : AResult) (p : List Pos),
      cellAt grid start.1 start.2 = some 1 ∧
      a_star_search 10 grid start goal = some r ∧
      r.path = some p ∧ p.head? = some start :=
  ⟨[[1, 0]], (0, 0), (1, 0), ⟨some [(0, 0), (1, 0)], some 1, 2⟩,
    [(0, 0), (1, 0)], by decide, by decide, rfl, rfl⟩

/-! ## Claim C6: start equal to goal -/

/-- C6 counterexample: on an all-aisle 2x2 grid with start = goal = (0, 0),
a_star_search returns the one-element path with cost 0 but with
expansions = 1, not 0: the main loop is entered, pops the start node
(counting one expansion), and only then breaks on the goal test. -/
theorem c6_expansions_counterexample :
    a_star_search 50 [[0, 0], [0, 0]] (0, 0) (0, 0) =
      some ⟨some [(0, 0)], some 0, 1⟩ := by decide

/-! ## Claim C5: inaccessible shelf goal -/

/-- C5: for every grid, start and fuel, if the goal is an in-bounds Shelf
cell and each of its two horizontal neighbours is a shelf or out of the
grid's bounds, a_star_search returns path = none, cost = infinity and
expansions = 0, without entering the main loop (the fuel is never
consumed). -/
theorem c5_unreachable_shelf_goal (fuel : Nat) (grid : Grid) (row0 : List Nat)
    (start goal : Pos)
    (hrow0 : grid.head? = some row0)
    (hgx : 0 ≤ goal.1) (hgxW : goal.1 < (row0.length : Int))
    (hshelf : cellAt grid goal.1 goal.2 = some 1)
    (hleft : goal.1 = 0 ∨ cellAt grid (goal.1 - 1) goal.2 = some 1)
    (hright : goal.1 + 1 = (row0.length : Int) ∨
      cellAt grid (goal.1 + 1) goal.2 = some 1) :
    a_star_search fuel grid start goal = some ⟨none, none, 0⟩ := by
  have hna : nearest_aisle grid start goal = some none := by
    unfold nearest_aisle
    rw [hrow0]
    by_cases hg1 : 0 ≤ goal.1 - 1
    · have hcellL : cellAt grid (goal.1 - 1) goal.2 = some 1 := by
        rcases hleft with h | h
        · omega
        · exact h
      by_cases hg2 : goal.1 + 1 < (row0.length : Int)
      · have hcellR : cellAt grid (goal.1 + 1) goal.2 = some 1 := by
          rcases hright with h | h
          · omega
          · exact h
        simp [hg1, hg2, hcellL, hcellR]
      · simp [hg1, hg2, hcellL]
    · by_cases hg2 : goal.1 + 1 < (row0.length : Int)
      · have hcellR : cellAt grid (goal.1 + 1) goal.2 = some 1 := by
          rcases hright with h | h
          · omega
          · exact h
        simp [hg1, hg2, hcellR]
      · simp [hg1, hg2]
  have hres : resolveGoal grid start goal = some none := by
    unfold resolveGoal
    rw [hshelf]
    simpa using hna
  unfold a_star_search
  rw [hrow0]
  simp only [Option.some_bind]
  rw [hres]
  rfl

/-- C5 witness: the 1x1 grid [[1]] with its single cell a shelf as goal. -/
theorem c5_unreachable_shelf_goal_witness :
    a_star_search 5 [[1]] (0, 0) (0, 0) = some ⟨none, none, 0⟩ :=
  c5_unreachable_shelf_goal 5 [[1]] [1] (0, 0) (0, 0) (by rfl) (by decide)
    (by decide) (by decide) (Or.inl (by decide)) (Or.inl (by decide))

/-! ## Claim C6: start equal to goal (amended) -/

/-- C6 amended: for every grid, every in-bounds non-obstacle p and every
positive fuel, a_star_search(grid, p, p) returns the one-element path [p]
with cost 0 and expansions = 1: the main loop is entered once, the popped
start is counted as an expansion, and the loop then breaks on the goal
test; the single-cell path is produced by the start == goal short-circuit
of the reconstruction phase, not before the loop. -/
theorem c6_amended_start_eq_goal (fuel : Nat) (grid : Grid) (p : Pos)
    (hfuel : 1 ≤ fuel)
    (hfree : cellAt grid p.1 p.2 = some 0) :
    a_star_search fuel grid p p = some ⟨some [p], some 0, 1⟩ := by
  obtain ⟨row0, hrow0⟩ : ∃ row0, grid.head? = some row0 := by
    cases grid with
    | nil => simp [cellAt, pyNth] at hfree
    | cons r rs => exact ⟨r, rfl⟩
  obtain ⟨k, rfl⟩ : ∃ k, fuel = k + 1 := ⟨fuel - 1, by omega⟩
  have hres : resolveGoal grid p p = some (some p) := by
    unfold resolveGoal
    rw [hfree]
    rfl
  unfold a_star_search
  rw [hrow0]
  simp only [Option.bind_some, Option.bind_eq_bind]
  rw [hres]
  simp only [Option.some_bind]
  have hloop : astarLoop grid (row0.length : Int) (grid.length : Int) p (k + 1)
      (initState p) = some ⟨[], [], [(p, 0)], 1, [(0, 0, p)], [(0, 0, p)]⟩ := by
    unfold astarLoop initState popMin minEntry removeFirst
    simp
  rw [hloop]
  simp [lookupPos]

/-- C6 amended witness: the 1x1 all-aisle grid. -/
theorem c6_amended_start_eq_goal_witness :
    a_star_search 3 [[0]] (0, 0) (0, 0) = some ⟨some [(0, 0)], some 0, 1⟩ :=
  c6_amended_start_eq_goal 3 [[0]] (0, 0) (by decide) (by decide)

/-! ## Claim C7: goal resolution tie-break -/

/-- C7: when the goal is a Shelf cell and both horizontal neighbours are
in-bounds aisle cells, goal resolution substitutes the neighbour with the
smaller Manhattan distance to start, choosing the left neighbour (lower x)
when the two distances are equal: the right neighbour is chosen exactly
when its distance is strictly smaller. -/
theorem c7_resolution_tiebreak (grid : Grid) (row0 : List Nat) (start goal : Pos)
    (hrow0 : grid.head? = some row0)
    (hshelf : cellAt grid goal.1 goal.2 = some 1)
    (h1 : 0 ≤ goal.1 - 1) (h2 : goal.1 + 1 < (row0.length : Int))
    (hleft : cellAt grid (goal.1 - 1) goal.2 = some 0)
    (hright : cellAt grid (goal.1 + 1) goal.2 = some 0) :
    resolveGoal grid start goal = some (some
      (if manhattan (goal.1 + 1, goal.2) start < manhattan (goal.1 - 1, goal.2) start
       then (goal.1 + 1, goal.2) else (goal.1 - 1, goal.2))) := by
  have hna : nearest_aisle grid start goal = some (some
      (if manhattan (goal.1 + 1, goal.2) start < manhattan (goal.1 - 1, goal.2) start
       then (goal.1 + 1, goal.2) else (goal.1 - 1, goal.2))) := by
    unfold nearest_aisle
    rw [hrow0]
    simp [h1, h2, hleft, hright, minByMan]
  unfold resolveGoal
  rw [hshelf]
  simpa using hna

/-- C7 witness: shelf at (1, 0) of [[0,1,0]] with start (0,0); distances 0
(left) and 2 (right) select the left neighbour (0, 0). -/
theorem c7_resolution_tiebreak_witness :
    resolveGoal [[0, 1, 0]] (0, 0) (1, 0) = some (some (0, 0)) := by
  have h := c7_resolution_tiebreak [[0, 1, 0]] [0, 1, 0] (0, 0) (1, 0)
    (by rfl) (by decide) (by decide) (by decide) (by decide) (by decide)
  simpa using h

/-- Any final state of a run satisfies the invariant bundle for some
exception list (empty on frontier exhaustion, the final goal pop after a
break). -/
theorem a_star_traced_bundle {fuel : Nat} {grid : Grid} {start goal0 : Pos}
    {stF : AState} (h : a_star_traced fuel grid start goal0 = some stF) :
    ∃ (W H : Int) (goal : Pos) (excl : List Entry),
      NInvA grid W H goal start excl stF := by
  unfold a_star_traced at h
  rcases hrow : grid.head? with _ | row0
  · rw [hrow] at h; cases h
  · rw [hrow] at h
    simp only [Option.bind_eq_bind, Option.some_bind] at h
    rcases hres : resolveGoal grid start goal0 with _ | gr
    · rw [hres] at h; cases h
    · rw [hres] at h
      simp only [Option.bind_eq_bind, Option.some_bind] at h
      rcases gr with _ | goal
      · dsimp only at h
        cases h
        exact ⟨0, 0, start, [],
          ninv_init grid 0 0 start start []⟩
      · dsimp only at h
        rcases astarLoop_ninv fuel _ stF
            (ninv_init grid (row0.length : Int) (grid.length : Int) goal start [])
            (by intro ep hep; simp [initState] at hep) h with
          ⟨hf, _, _⟩ | ⟨stPre, e, rest, hpre, _, hp, hgoal, hst⟩
        · exact ⟨_, _, goal, [], hf⟩
        · subst hst
          exact ⟨_, _, goal, [e], (popStep_ninv hpre hp).1⟩

/-! ## Claim C3: no re-expansion, no stale pops, no frontier updates -/

/-- C3: in every a_star_search run (any fuel, any inputs, observed through
the traced variant), no coordinate is ever popped twice (a finalized node
is never re-expanded), every popped entry's g equals the recorded g cost
of its coordinate in the final table (no pop is ever stale, so the
missing stale-pop guard of search.py:94-96 is never exercised), and every
coordinate is pushed at most once with a g that is never revised (so the
strictly-smaller-g update guard of search.py:118 never fires on a node
already in the frontier). -/
theorem c3_no_reexpansion_no_stale (fuel : Nat) (grid : Grid)
    (start goal0 : Pos) (stF : AState)
    (h : a_star_traced fuel grid start goal0 = some stF) :
    (stF.pops.map (fun e : Entry => e.2.2)).Nodup ∧
    (∀ ep ∈ stF.pops, lookupPos stF.gCost ep.2.2 = some ep.2.1) ∧
    (stF.pushes.map (fun e : Entry => e.2.2)).Nodup ∧
    (∀ e ∈ stF.pushes, lookupPos stF.gCost e.2.2 = some e.2.1) := by
  obtain ⟨W, H, goal, excl, hb⟩ := a_star_traced_bundle h
  exact ⟨hb.popsUniq, fun ep hep => (hb.popsNS ep hep).1, hb.pushesUniq,
    fun e he => (hb.pushesNS e he).1⟩

/-- C3 witness: the concrete run on [[0,0]] from (0,0) to (1,0). -/
theorem c3_no_reexpansion_no_stale_witness :
    (([(0, 0, ((0 : Int), (0 : Int))), (1, 1, (1, 0))].map
        (fun e : Entry => e.2.2)).Nodup ∧
      (∀ ep ∈ [(0, 0, ((0 : Int), (0 : Int))), (1, 1, (1, 0))],
        lookupPos [(((0 : Int), (0 : Int)), 0), ((1, 0), 1)] ep.2.2
          = some ep.2.1) ∧
      (([(0, 0, ((0 : Int), (0 : Int))), (1, 1, (1, 0))].map
        (fun e : Entry => e.2.2)).Nodup) ∧
      (∀ e ∈ [(0, 0, ((0 : Int), (0 : Int))), (1, 1, (1, 0))],
        lookupPos [(((0 : Int), (0 : Int)), 0), ((1, 0), 1)] e.2.2
          = some e.2.1)) :=
  c3_no_reexpansion_no_stale 50 [[0, 0]] (0, 0) (1, 0)
    ⟨[], [((1, 0), (0, 0))], [((0, 0), 0), ((1, 0), 1)], 2,
      [(0, 0, (0, 0)), (1, 1, (1, 0))], [(0, 0, (0, 0)), (1, 1, (1, 0))]⟩
    (by rfl)

/-! ## Claim C4: frontier tie-breaking -/

/-- C4 amended: in every run, the sequence of popped entries is strictly
increasing in the lexicographic order on (f, g, x, y): ascending f, ties
on f by smaller g, and ties on both f and g by ascending coordinate (the
comparison Python applies to the pushed (f, g, (x, y)) tuples) — not by
insertion order.  Together with popMin_spec (each pop is a minimal-key
frontier entry) this makes the returned path, cost and expansions
deterministic functions of the inputs. -/
theorem c4_amended_pop_keys_increase (fuel : Nat) (grid : Grid)
    (start goal0 : Pos) (stF : AState)
    (h : a_star_traced fuel grid start goal0 = some stF) :
    stF.pops.Pairwise keyLt := by
  obtain ⟨W, H, goal, excl, hb⟩ := a_star_traced_bundle h
  exact hb.popsOrd

/-- C4 amended witness: the concrete run on [[0,0]] from (0,0) to (1,0). -/
theorem c4_amended_pop_keys_increase_witness :
    List.Pairwise keyLt [(0, 0, ((0 : Int), (0 : Int))), (1, 1, (1, 0))] :=
  c4_amended_pop_keys_increase 50 [[0, 0]] (0, 0) (1, 0)
    ⟨[], [((1, 0), (0, 0))], [((0, 0), 0), ((1, 0), 1)], 2,
      [(0, 0, (0, 0)), (1, 1, (1, 0))], [(0, 0, (0, 0)), (1, 1, (1, 0))]⟩
    (by rfl)


/-- C4 counterexample: on the grid [[0,0,0,0,0],[0,0,0,0,1]] with start
(1, 1) and goal (0, 0), the entries (f, g, c) = (2, 1, (1, 0)) and
(2, 1, (0, 1)) are inserted in that order (pushes indices 2 and 3) but are
popped in the opposite order (pops indices 2 and 1): entries with equal f
and equal g are popped in ascending coordinate order, not insertion
order. -/
theorem c4_equal_fg_not_popped_in_insertion_order :
    (a_star_traced 50 [[0, 0, 0, 0, 0], [0, 0, 0, 0, 1]] (1, 1) (0, 0)).map
        (fun st => (st.pushes, st.pops)) =
      some ([(0, 0, (1, 1)), (4, 1, (2, 1)), (2, 1, (1, 0)), (2, 1, (0, 1)),
              (2, 2, (0, 0)), (4, 2, (2, 0))],
            [(0, 0, (1, 1)), (2, 1, (0, 1)), (2, 1, (1, 0)), (2, 2, (0, 0))]) := by
  rfl

/-! ## Claim C1: optimality of the returned cost -/

/-- A 4-connected aisle path in the sense of the spec: a nonempty
coordinate sequence from `s` to `t`, consecutive cells one cardinal step
apart, every cell in bounds and an aisle (cell value 0). -/
def AislePath (grid : Grid) (W H : Int) (s t : Pos) (p : List Pos) : Prop :=
  p.head? = some s ∧ p.getLast? = some t ∧
  List.Chain' (fun u v => manhattan u v = 1) p ∧
  ∀ c ∈ p, (0 ≤ c.1 ∧ c.1 < W ∧ 0 ≤ c.2 ∧ c.2 < H) ∧
    cellAt grid c.1 c.2 = some 0

instance (grid : Grid) (W H : Int) (s t : Pos) (p : List Pos) :
    Decidable (AislePath grid W H s t p) :=
  inferInstanceAs (Decidable (p.head? = some s ∧ p.getLast? = some t ∧
    List.Chain' (fun u v => manhattan u v = 1) p ∧
    ∀ c ∈ p, (0 ≤ c.1 ∧ c.1 < W ∧ 0 ≤ c.2 ∧ c.2 < H) ∧
      cellAt grid c.1 c.2 = some 0))

theorem aislePath_singleton {grid : Grid} {W H : Int} {s : Pos}
    (hb : 0 ≤ s.1 ∧ s.1 < W ∧ 0 ≤ s.2 ∧ s.2 < H)
    (hc : cellAt grid s.1 s.2 = some 0) :
    AislePath grid W H s s [s] := by
  refine ⟨rfl, rfl, List.chain'_singleton _, ?_⟩
  intro c hc'
  rw [List.mem_singleton] at hc'
  subst hc'
  exact ⟨hb, hc⟩

theorem aislePath_snoc {grid : Grid} {W H : Int} {s t c : Pos} {p : List Pos}
    (hp : AislePath grid W H s t p)
    (hman : manhattan t c = 1)
    (hb : 0 ≤ c.1 ∧ c.1 < W ∧ 0 ≤ c.2 ∧ c.2 < H)
    (hcell : cellAt grid c.1 c.2 = some 0) :
    AislePath grid W H s c (p ++ [c]) := by
  obtain ⟨hh, hl, hch, hmem⟩ := hp
  refine ⟨?_, List.getLast?_concat _, ?_, ?_⟩
  · cases p with
    | nil => cases hh
    | cons a q => exact hh
  · rw [List.chain'_append]
    refine ⟨hch, List.chain'_singleton _, ?_⟩
    intro x hx y hy
    rw [hl] at hx
    cases hx
    cases hy
    exact hman
  · intro x hx
    rcases List.mem_append.mp hx with h | h
    · exact hmem x h
    · rw [List.mem_singleton] at h
      subst h
      exact ⟨hb, hcell⟩

/-- The Manhattan distance between the endpoints of a unit-step chain is
at most the number of steps. -/
theorem man_le_chain : ∀ (p : List Pos) (a b : Pos),
    List.Chain' (fun u v => manhattan u v = 1) p →
    p.head? = some a → p.getLast? = some b →
    manhattan a b + 1 ≤ p.length := by
  intro p
  induction p with
  | nil => intro a b _ hh _; cases hh
  | cons x rest ih =>
      intro a b hc hh hl
      simp only [List.head?_cons, Option.some.injEq] at hh
      subst hh
      cases rest with
      | nil =>
          have hx : ([x] : List Pos).getLast? = some x := by simp
          rw [hx, Option.some.injEq] at hl
          subst hl
          simp [manhattan_self]
      | cons y rest' =>
          rw [List.chain'_cons] at hc
          rw [List.getLast?_cons_cons] at hl
          have hrec := ih y b hc.2 rfl hl
          have htri := manhattan_triangle x y b
          have h1 := hc.1
          simp only [List.length_cons] at hrec ⊢
          omega

theorem pyNth_mem {l : List α} {i : Int} {a : α} (h : pyNth l i = some a) :
    a ∈ l := by
  unfold pyNth at h
  split at h
  · obtain ⟨hlt, hget⟩ := List.getElem?_eq_some.mp h
    exact hget ▸ List.getElem_mem hlt
  · split at h
    · obtain ⟨hlt, hget⟩ := List.getElem?_eq_some.mp h
      exact hget ▸ List.getElem_mem hlt
    · cases h

theorem cellAt_mem {grid : Grid} {x y : Int} {cv : Nat}
    (h : cellAt grid x y = some cv) : ∃ row ∈ grid, cv ∈ row := by
  unfold cellAt at h
  rcases hr : pyNth grid y with _ | row
  · rw [hr] at h; cases h
  · rw [hr] at h
    simp only [Option.some_bind] at h
    exact ⟨row, pyNth_mem hr, pyNth_mem h⟩

theorem nodup_length_le {α : Type} {l m : List α}
    (hl : l.Nodup) (hsub : ∀ x ∈ l, x ∈ m) : l.length ≤ m.length :=
  (hl.subperm hsub).length_le

theorem lookupPos_some_mem {d : List (Pos × α)} {k : Pos} {v : α}
    (h : lookupPos d k = some v) : k ∈ d.map Prod.fst := by
  by_contra hk
  rw [(lookupPos_eq_none_iff d k).mpr hk] at h
  cases h

/-- Every recorded g value is witnessed by a back-pointer chain of that
many distinct assigned coordinates. -/
theorem gvalue_chain {grid : Grid} {W H : Int} {goal start : Pos}
    {excl : List Entry} {st : AState}
    (hinv : NInvA grid W H goal start excl st) :
    ∀ (v : Nat) (c : Pos), lookupPos st.gCost c = some v →
      ∃ l : List Pos, l.length = v + 1 ∧ l.Nodup ∧
        ∀ x ∈ l, ∃ vx, lookupPos st.gCost x = some vx ∧ vx ≤ v := by
  intro v
  induction v with
  | zero =>
      intro c hc
      refine ⟨[c], rfl, List.nodup_singleton _, ?_⟩
      intro x hx
      rw [List.mem_singleton] at hx
      subst hx
      exact ⟨0, hc, le_refl 0⟩
  | succ v ih =>
      intro c hc
      have hcne : c ≠ start := by
        intro he
        rw [he, hinv.startG] at hc
        cases hc
      obtain ⟨p, hcf, hman, hp, _⟩ := hinv.cf c (v + 1) hc hcne
      have hp' : lookupPos st.gCost p = some v := by simpa using hp
      obtain ⟨l, hlen, hnd, hmem⟩ := ih p hp'
      refine ⟨c :: l, by simp [hlen], ?_, ?_⟩
      · rw [List.nodup_cons]
        refine ⟨?_, hnd⟩
        intro hcl
        obtain ⟨vx, hvx, hle⟩ := hmem c hcl
        rw [hc] at hvx
        cases hvx
        omega
      · intro x hx
        rcases List.mem_cons.mp hx with h | h
        · subst h
          exact ⟨v + 1, hc, le_refl _⟩
        · obtain ⟨vx, hvx, hle⟩ := hmem x h
          exact ⟨vx, hvx, by omega⟩

/-- A recorded g value is below the number of keys of the g-cost table. -/
theorem gvalue_le_table {grid : Grid} {W H : Int} {goal start : Pos}
    {excl : List Entry} {st : AState}
    (hinv : NInvA grid W H goal start excl st)
    {v : Nat} {c : Pos} (hc : lookupPos st.gCost c = some v) :
    v + 1 ≤ st.gCost.length := by
  obtain ⟨l, hlen, hnd, hmem⟩ := gvalue_chain hinv v c hc
  have hsub : ∀ x ∈ l, x ∈ st.gCost.map Prod.fst := by
    intro x hx
    obtain ⟨vx, hvx, _⟩ := hmem x hx
    exact lookupPos_some_mem hvx
  have hle := nodup_length_le hnd hsub
  rw [hlen, List.length_map] at hle
  exact hle

/-- The g-cost table never holds more than W * H + 1 keys: the keys are
pairwise distinct and each is either the start or an in-bounds cell. -/
theorem table_bound {grid : Grid} {W H : Int} {goal start : Pos}
    {excl : List Entry} {st : AState}
    (hinv : NInvA grid W H goal start excl st)
    (hW : 0 ≤ W) (hH : 0 ≤ H) :
    st.gCost.length ≤ W.toNat * H.toNat + 1 := by
  have hkeys : st.gCost.length = (st.gCost.map Prod.fst).length :=
    (List.length_map _ _).symm
  have hnd : (st.gCost.map Prod.fst).Nodup := hinv.keysNodup
  have hdom := hinv.keysDom
  have hsub : (st.gCost.map Prod.fst).toFinset ⊆
      insert start ((Finset.Icc (0 : Int) (W - 1)) ×ˢ
        (Finset.Icc (0 : Int) (H - 1))) := by
    intro c hcm
    rw [List.mem_toFinset] at hcm
    rcases hdom c hcm with h | h
    · rw [h]; exact Finset.mem_insert_self _ _
    · refine Finset.mem_insert_of_mem ?_
      rw [Finset.mem_product, Finset.mem_Icc, Finset.mem_Icc]
      omega
  have hcard : (st.gCost.map Prod.fst).toFinset.card ≤ W.toNat * H.toNat + 1 := by
    calc (st.gCost.map Prod.fst).toFinset.card
        ≤ (insert start ((Finset.Icc (0 : Int) (W - 1)) ×ˢ
            (Finset.Icc (0 : Int) (H - 1)))).card := Finset.card_le_card hsub
      _ ≤ ((Finset.Icc (0 : Int) (W - 1)) ×ˢ
            (Finset.Icc (0 : Int) (H - 1))).card + 1 := Finset.card_insert_le _ _
      _ = W.toNat * H.toNat + 1 := by
          rw [Finset.card_product, Int.card_Icc, Int.card_Icc]
          have h1 : (W - 1 + 1 - 0 : Int) = W := by ring
          have h2 : (H - 1 + 1 - 0 : Int) = H := by ring
          rw [h1, h2]
  have hlen : (st.gCost.map Prod.fst).toFinset.card
      = (st.gCost.map Prod.fst).length := List.toFinset_card_of_nodup hnd
  omega

/-- Walking the back-pointer chain from an assigned coordinate terminates
within its g value many steps, appends exactly that many nodes, and the
reversed result (with start appended) is an aisle path of that length
from start to the coordinate. -/
theorem recon_path {grid : Grid} {W H : Int} {goal start : Pos}
    {excl : List Entry} {st : AState}
    (hinv : NInvA grid W H goal start excl st)
    (hsb : 0 ≤ start.1 ∧ start.1 < W ∧ 0 ≤ start.2 ∧ start.2 < H)
    (hsc : cellAt grid start.1 start.2 = some 0)
    (hbin : ∀ row ∈ grid, ∀ cv ∈ row, cv = 0 ∨ cv = 1) :
    ∀ (v : Nat) (c : Pos), lookupPos st.gCost c = some v →
      ∀ (fuel : Nat), v < fuel → ∀ acc : List Pos,
      ∃ s, reconLoop st.cameFrom start fuel c acc = some (acc ++ s) ∧
        s.length = v ∧
        AislePath grid W H start c ((s ++ [start]).reverse) := by
  intro v
  induction v with
  | zero =>
      intro c hc fuel hfuel acc
      have hcs : c = start := by
        by_contra hne
        have := hinv.gpos c 0 hc hne
        omega
      subst hcs
      obtain ⟨f, rfl⟩ : ∃ f, fuel = f + 1 := ⟨fuel - 1, by omega⟩
      refine ⟨[], by simp [reconLoop], rfl, ?_⟩
      simpa using aislePath_singleton hsb hsc
  | succ v ih =>
      intro c hc fuel hfuel acc
      have hcne : c ≠ start := by
        intro he
        rw [he, hinv.startG] at hc
        cases hc
      obtain ⟨p, hcf, hman, hp, _⟩ := hinv.cf c (v + 1) hc hcne
      have hp' : lookupPos st.gCost p = some v := by simpa using hp
      obtain ⟨f, rfl⟩ : ∃ f, fuel = f + 1 := ⟨fuel - 1, by omega⟩
      obtain ⟨s', hs', hlen', hpath'⟩ := ih p hp' f (by omega) (acc ++ [c])
      refine ⟨c :: s', ?_, by simp [hlen'], ?_⟩
      · show reconLoop st.cameFrom start (f + 1) c acc = _
        unfold reconLoop
        rw [if_neg hcne, hcf]
        dsimp only
        rw [hs']
        simp
      · have hrw : ((c :: s') ++ [start]).reverse
            = ((s' ++ [start]).reverse) ++ [c] := by simp
        rw [hrw]
        obtain ⟨hbc, hcellc⟩ := hinv.freeCells c (v + 1) hc hcne
        obtain ⟨cv, hcv, hcv1⟩ := hcellc
        have hcv0 : cv = 0 := by
          obtain ⟨row, hrow, hmemr⟩ := cellAt_mem hcv
          rcases hbin row hrow cv hmemr with h | h
          · exact h
          · exact absurd h hcv1
        subst hcv0
        exact aislePath_snoc hpath' (by rw [manhattan_comm]; exact hman) hbc hcv

theorem lookupPos_mem_some {d : List (Pos × α)} {k : Pos}
    (h : k ∈ d.map Prod.fst) : ∃ v, lookupPos d k = some v := by
  rcases hl : lookupPos d k with _ | v
  · exact absurd h ((lookupPos_eq_none_iff d k).mp hl)
  · exact ⟨v, rfl⟩

/-- Covering: while the goal has never been popped, every aisle path from
an assigned coordinate to the goal is covered by an open entry whose f
value is at most the assigned g plus the number of remaining steps.
(The popped prefix of the path always extends one step further, since a
popped node has all its free neighbours assigned within one step of it.) -/
theorem cover_open {grid : Grid} {W H : Int} {goal start : Pos} {st : AState}
    (hinv : NInv grid W H goal start st)
    (hgnp : ∀ ep ∈ st.pops, ep.2.2 ≠ goal) :
    ∀ (q : List Pos) (z : Pos) (vz : Nat),
      q.head? = some z → q.getLast? = some goal →
      List.Chain' (fun u v => manhattan u v = 1) q →
      (∀ c ∈ q, (0 ≤ c.1 ∧ c.1 < W ∧ 0 ≤ c.2 ∧ c.2 < H) ∧
        cellAt grid c.1 c.2 = some 0) →
      lookupPos st.gCost z = some vz →
      ∃ e ∈ st.openSet, e.1 ≤ vz + (q.length - 1) := by
  intro q
  induction q with
  | nil => intro z vz hh _ _ _ _; cases hh
  | cons x q' ih =>
      intro z vz hh hl hch hcells hz
      simp only [List.head?_cons, Option.some.injEq] at hh
      subst hh
      by_cases hzp : ∃ ep ∈ st.pops, ep.2.2 = x
      · -- x was popped: it cannot be the goal, so the path continues and
        -- the expansion of x assigned the next cell within one step
        obtain ⟨ep, hep, hepc⟩ := hzp
        have hxg : x ≠ goal := by
          rw [← hepc]
          exact hgnp ep hep
        cases q' with
        | nil =>
            exfalso
            apply hxg
            have hx : ([x] : List Pos).getLast? = some x := by simp
            rw [hx, Option.some.injEq] at hl
            exact hl
        | cons y q'' =>
            rw [List.getLast?_cons_cons] at hl
            rw [List.chain'_cons] at hch
            have hyb := (hcells y (by simp)).1
            have hyc := (hcells y (by simp)).2
            have hepg : ep.2.1 = vz := by
              have h1 := (hinv.popsNS ep hep).1
              rw [hepc, hz] at h1
              exact (Option.some.inj h1).symm
            have hmany : manhattan y ep.2.2 = 1 := by
              rw [hepc, manhattan_comm]
              exact hch.1
            obtain ⟨vy, hvy, hvyle⟩ := hinv.expanded ep hep
              (List.not_mem_nil _) y hmany hyb
              (fun cv hcv => by rw [hyc] at hcv; cases hcv; decide)
            obtain ⟨e, hemem, hf⟩ := ih y vy rfl hl hch.2
              (fun c hc => hcells c (List.mem_cons_of_mem _ hc)) hvy
            refine ⟨e, hemem, ?_⟩
            simp only [List.length_cons] at hf ⊢
            omega
      · -- x never popped: its unique pushed entry is still in the frontier
        obtain ⟨e, hemem, hec⟩ := hinv.domPushed x vz hz
        have hev : e.2.1 = vz := by
          have h1 := (hinv.pushesNS e hemem).1
          rw [hec, hz] at h1
          exact (Option.some.inj h1).symm
        have hopen : e ∈ st.openSet := by
          rcases List.mem_append.mp (hinv.pushesPerm.mem_iff.mp hemem) with h | h
          · exact h
          · exact absurd ⟨e, h, hec⟩ hzp
        rcases (hinv.ns e hopen).2 with hf | hf0
        · refine ⟨e, hopen, ?_⟩
          rw [hf, hev, hec]
          have hm := man_le_chain (x :: q') x goal hch rfl hl
          simp only [List.length_cons] at hm ⊢
          omega
        · refine ⟨e, hopen, ?_⟩
          rw [hf0]
          simp

/-- On a rectangular grid, a direction step from an assigned coordinate
never raises: every branch of stepDir returns a state. -/
theorem stepDir_total {grid : Grid} {W H : Int} {goal cur : Pos}
    {st : AState} {gc : Nat} (d : Pos)
    (hH : (grid.length : Int) = H)
    (hrect : ∀ row ∈ grid, (row.length : Int) = W)
    (hcur : lookupPos st.gCost cur = some gc) :
    ∃ st', stepDir grid W H goal cur st d = some st' := by
  unfold stepDir
  by_cases hb : ¬ (0 ≤ cur.1 + d.1 ∧ cur.1 + d.1 < W ∧ 0 ≤ cur.2 + d.2 ∧
      cur.2 + d.2 < H)
  · rw [if_pos hb]
    exact ⟨st, rfl⟩
  · rw [if_neg hb]
    push_neg at hb
    obtain ⟨h1, h2, h3, h4⟩ := hb
    obtain ⟨row, hrow, hrowmem⟩ :=
      pyNth_total grid (cur.2 + d.2) (by omega) (by omega)
    have hwrow := hrect row hrowmem
    obtain ⟨cell, hcell, _⟩ :=
      pyNth_total row (cur.1 + d.1) (by omega) (by omega)
    have hcellAt : cellAt grid (cur.1 + d.1) (cur.2 + d.2) = some cell := by
      unfold cellAt
      rw [hrow]
      simpa using hcell
    rw [hcellAt]
    simp only [Option.some_bind]
    by_cases h1c : cell == 1
    · rw [if_pos h1c]
      exact ⟨st, rfl⟩
    · rw [if_neg h1c]
      rw [hcur]
      simp only [Option.some_bind]
      by_cases hupd : shouldUpd (lookupPos st.gCost (cur.1 + d.1, cur.2 + d.2))
          (gc + 1) = true
      · rw [if_pos hupd]
        exact ⟨_, rfl⟩
      · rw [if_neg hupd]
        exact ⟨st, rfl⟩

/-- One direction step preserves the difference between frontier size and
table size: an update pushes one entry and inserts one fresh key (under
the neighbour bound, the update guard can only fire on unassigned cells). -/
theorem stepDir_len {grid : Grid} {W H : Int} {goal : Pos}
    {st st' : AState} {e0 : Entry} {d : Pos}
    (hg0 : lookupPos st.gCost e0.2.2 = some e0.2.1)
    (hw0 : ∀ n vn, manhattan n e0.2.2 = 1 → lookupPos st.gCost n = some vn →
      vn ≤ e0.2.1 + 1)
    (hd : d ∈ directions)
    (h : stepDir grid W H goal e0.2.2 st d = some st') :
    st'.openSet.length + st.gCost.length
      = st.openSet.length + st'.gCost.length := by
  unfold stepDir at h
  by_cases hb : ¬ (0 ≤ e0.2.2.1 + d.1 ∧ e0.2.2.1 + d.1 < W ∧
      0 ≤ e0.2.2.2 + d.2 ∧ e0.2.2.2 + d.2 < H)
  · rw [if_pos hb] at h
    cases h
    rfl
  · rw [if_neg hb] at h
    rcases hc : cellAt grid (e0.2.2.1 + d.1) (e0.2.2.2 + d.2) with _ | cval
    · rw [hc] at h; cases h
    · rw [hc] at h
      simp only [Option.some_bind] at h
      by_cases h1 : cval == 1
      · rw [if_pos h1] at h
        cases h
        rfl
      · rw [if_neg h1] at h
        rw [hg0] at h
        simp only [Option.some_bind] at h
        by_cases hupd : shouldUpd (lookupPos st.gCost
            (e0.2.2.1 + d.1, e0.2.2.2 + d.2)) (e0.2.1 + 1) = true
        · rw [if_pos hupd] at h
          have hfresh : lookupPos st.gCost (e0.2.2.1 + d.1, e0.2.2.2 + d.2)
              = none := by
            rcases hl : lookupPos st.gCost (e0.2.2.1 + d.1, e0.2.2.2 + d.2)
                with _ | old
            · rfl
            · exfalso
              have hle := hw0 (e0.2.2.1 + d.1, e0.2.2.2 + d.2) old
                (manhattan_step e0.2.2 d hd) hl
              unfold shouldUpd at hupd
              rw [hl] at hupd
              simp at hupd
              omega
          cases h
          simp only [List.length_append, List.length_cons, List.length_nil]
          rw [insertPos_length_of_none _ _ _ hfresh]
          omega
        · rw [if_neg hupd] at h
          cases h
          rfl

/-- On a rectangular grid the whole direction fold returns a state and
preserves the difference between frontier size and table size. -/
theorem foldlM_stepDir_total {grid : Grid} {W H : Int} {goal start : Pos}
    {e0 : Entry}
    (hH : (grid.length : Int) = H)
    (hrect : ∀ row ∈ grid, (row.length : Int) = W) :
    ∀ (l : List Pos) (st : AState),
    (∀ d ∈ l, d ∈ directions) →
    NInvA grid W H goal start [e0] st →
    e0 ∈ st.pops →
    (∀ ep ∈ st.pops, ep = e0 ∨ keyLt ep e0) →
    (∀ n vn, manhattan n e0.2.2 = 1 → lookupPos st.gCost n = some vn →
      vn ≤ e0.2.1 + 1) →
    ∃ st', (l.foldlM (stepDir grid W H goal e0.2.2) st : Option AState) = some st' ∧
      st'.openSet.length + st.gCost.length
        = st.openSet.length + st'.gCost.length := by
  intro l
  induction l with
  | nil =>
      intro st _ _ _ _ _
      exact ⟨st, by simp, rfl⟩
  | cons d rest ih =>
      intro st hmem hinv he0 hmax hw0
      have hg0 : lookupPos st.gCost e0.2.2 = some e0.2.1 :=
        (hinv.popsNS e0 he0).1
      obtain ⟨st1, hstep⟩ := stepDir_total d hH hrect hg0
      have hlen1 := stepDir_len hg0 hw0 (hmem d (List.mem_cons_self _ _)) hstep
      obtain ⟨hinv1, hpops1, _, hw01, _⟩ :=
        stepDir_ninv (hmem d (List.mem_cons_self _ _)) hinv he0 hmax hw0 hstep
      obtain ⟨st', hfold, hlen2⟩ := ih st1
        (fun d' hd' => hmem d' (List.mem_cons_of_mem _ hd'))
        hinv1 (by rw [hpops1]; exact he0) (by rw [hpops1]; exact hmax) hw01
      refine ⟨st', ?_, by omega⟩
      simp only [List.foldlM_cons]
      rw [hstep]
      simp only [Option.bind_eq_bind, Option.some_bind]
      exact hfold

/-- With fuel exceeding the loop measure, the search loop returns a state:
every iteration either leaves the table strictly larger or the frontier
strictly smaller. -/
theorem astarLoop_total {grid : Grid} {W H : Int} {goal start : Pos}
    (hH : (grid.length : Int) = H)
    (hrect : ∀ row ∈ grid, (row.length : Int) = W)
    (hW : 0 ≤ W) (hH0 : 0 ≤ H) :
    ∀ (fuel : Nat) (st : AState),
    NInv grid W H goal start st →
    (W.toNat * H.toNat + 1 - st.gCost.length) * 5 + st.openSet.length < fuel →
    ∃ stF, astarLoop grid W H goal fuel st = some stF := by
  intro fuel
  induction fuel with
  | zero => intro st _ hm; exact absurd hm (by omega)
  | succ k ih =>
      intro st hinv hm
      rcases hp : popMin st.openSet with _ | er
      · exact ⟨st, by unfold astarLoop; rw [hp]⟩
      · obtain ⟨e, rest⟩ := er
        by_cases hgoal : e.2.2 = goal
        · refine ⟨{ st with openSet := rest, expansions := st.expansions + 1, pops := st.pops ++ [e] }, ?_⟩
          unfold astarLoop
          rw [hp]
          dsimp only
          rw [if_pos hgoal]
        · obtain ⟨hinv1, hmax1, hw01, hemem⟩ := popStep_ninv hinv hp
          obtain ⟨st2, hfold, hlen⟩ := foldlM_stepDir_total hH hrect directions
            { st with openSet := rest, expansions := st.expansions + 1,
                      pops := st.pops ++ [e] }
            (fun d hd => hd) hinv1
            (List.mem_append_right _ (List.mem_singleton_self _))
            hmax1 hw01
          obtain ⟨hinv2, hpops2, hmono2, hproc2⟩ :=
            foldlM_stepDir_ninv directions _ st2 (fun d hd => hd) hinv1
              (List.mem_append_right _ (List.mem_singleton_self _))
              hmax1 hw01 hfold
          have hinv2' : NInv grid W H goal start st2 :=
            ninv_drop_excl hinv2 hproc2
          have hopen : st.openSet.length = rest.length + 1 := by
            have hperm := (popMin_spec hp).1
            have hle := hperm.length_eq
            simpa using hle
          have hg2 : st.gCost.length ≤ st2.gCost.length := by
            have hsub : ∀ c ∈ st.gCost.map Prod.fst,
                c ∈ st2.gCost.map Prod.fst := by
              intro c hc
              obtain ⟨v, hv⟩ := lookupPos_mem_some hc
              exact lookupPos_some_mem (hmono2 c v hv)
            have hle := nodup_length_le hinv.keysNodup hsub
            simpa using hle
          have hB2 : st2.gCost.length ≤ W.toNat * H.toNat + 1 :=
            table_bound hinv2' hW hH0
          dsimp only at hlen
          obtain ⟨stF, hloop⟩ := ih st2 hinv2' (by omega)
          refine ⟨stF, ?_⟩
          unfold astarLoop
          rw [hp]
          dsimp only
          rw [if_neg hgoal, hfold]
          simp only [Option.some_bind]
          exact hloop

theorem head?_mem {l : List α} {a : α} (h : l.head? = some a) : a ∈ l := by
  cases l with
  | nil => cases h
  | cons x xs =>
      simp only [List.head?_cons, Option.some.injEq] at h
      subst h
      exact List.mem_cons_self _ _

theorem getLast?_mem {l : List α} {a : α} (h : l.getLast? = some a) : a ∈ l := by
  induction l with
  | nil => cases h
  | cons x xs ih =>
      cases xs with
      | nil =>
          have hx : ([x] : List α).getLast? = some x := by simp
          rw [hx, Option.some.injEq] at h
          subst h
          exact List.mem_cons_self _ _
      | cons y ys =>
          rw [List.getLast?_cons_cons] at h
          exact List.mem_cons_of_mem _ (ih h)

/-- C1: on every rectangular 0/1 grid, for every start and goal joined by
a 4-connected aisle path (both therefore in-bounds aisle cells),
a_star_search — given fuel beyond the explicit bound for its two loops —
returns a non-none path from start to goal whose cost (length minus one)
equals the true shortest 4-connected aisle distance: the returned path is
itself an aisle path, and no aisle path from start to goal is shorter. -/
theorem c1_optimal_shortest_path (grid : Grid) (row0 : List Nat)
    (start goal : Pos) (pi0 : List Pos)
    (hrow : grid.head? = some row0)
    (hrect : ∀ row ∈ grid, row.length = row0.length)
    (hbin : ∀ row ∈ grid, ∀ cv ∈ row, cv = 0 ∨ cv = 1)
    (hpi : AislePath grid (row0.length : Int) (grid.length : Int)
      start goal pi0) :
    ∃ N, ∀ fuel, N ≤ fuel →
      ∃ p ex, a_star_search fuel grid start goal
          = some ⟨some p, some (p.length - 1), ex⟩ ∧
        AislePath grid (row0.length : Int) (grid.length : Int) start goal p ∧
        ∀ q, AislePath grid (row0.length : Int) (grid.length : Int)
            start goal q → p.length ≤ q.length := by
  have hstart_mem : start ∈ pi0 := head?_mem hpi.1
  have hgoal_mem : goal ∈ pi0 := getLast?_mem hpi.2.1
  obtain ⟨hsb, hsc⟩ := hpi.2.2.2 start hstart_mem
  obtain ⟨hgb, hgc⟩ := hpi.2.2.2 goal hgoal_mem
  have hpine : pi0 ≠ [] := by
    intro h
    rw [h] at hpi
    cases hpi.1
  have hpipos : 1 ≤ pi0.length := List.length_pos.mpr hpine
  obtain ⟨L, hLmem, hLmin0⟩ := Nat.lt_wfRel.wf.has_min
    {n : Nat | ∃ p, AislePath grid (row0.length : Int) (grid.length : Int)
      start goal p ∧ p.length = n + 1}
    ⟨pi0.length - 1, pi0, hpi, by omega⟩
  obtain ⟨pim, hpim, hpimlen⟩ := hLmem
  have hmin : ∀ q, AislePath grid (row0.length : Int) (grid.length : Int)
      start goal q → L + 1 ≤ q.length := by
    intro q hq
    have hqne : q ≠ [] := by
      intro h
      rw [h] at hq
      cases hq.1
    have hqpos : 1 ≤ q.length := List.length_pos.mpr hqne
    have hnot : ¬ (q.length - 1) < L :=
      hLmin0 (q.length - 1) ⟨q, hq, by omega⟩
    omega
  refine ⟨5 * (row0.length * grid.length + 1) + L + 2, ?_⟩
  intro fuel hfuel
  have hres : resolveGoal grid start goal = some (some goal) := by
    unfold resolveGoal
    rw [hgc]
    rfl
  have hrect' : ∀ row ∈ grid, (row.length : Int) = (row0.length : Int) := by
    intro row hr
    rw [hrect row hr]
  have hW0 : (0 : Int) ≤ (row0.length : Int) := by omega
  have hH0 : (0 : Int) ≤ (grid.length : Int) := by omega
  obtain ⟨stF, hloopF⟩ := astarLoop_total rfl hrect' hW0 hH0 fuel
    (initState start)
    (ninv_init grid (row0.length : Int) (grid.length : Int) goal start [])
    (by
      have h1 : (initState start).gCost.length = 1 := rfl
      have h2 : (initState start).openSet.length = 1 := rfl
      have h3 : ((row0.length : Int)).toNat = row0.length := rfl
      have h4 : ((grid.length : Int)).toNat = grid.length := rfl
      rw [h1, h2, h3, h4]
      omega)
  rcases astarLoop_ninv fuel (initState start) stF
      (ninv_init grid (row0.length : Int) (grid.length : Int) goal start [])
      (by intro ep hep; simp [initState] at hep) hloopF with
    ⟨hfinv, hopenE, hgnpF⟩ | ⟨stPre, e, rest, hpre, hgnpPre, hp, hgoalc, hstF⟩
  · -- frontier exhaustion is impossible: the minimal aisle path would
    -- still be covered by an open entry
    exfalso
    obtain ⟨ec, hecmem, _⟩ := cover_open hfinv hgnpF pim start 0
      hpim.1 hpim.2.1 hpim.2.2.1 hpim.2.2.2 hfinv.startG
    rw [hopenE] at hecmem
    exact List.not_mem_nil ec hecmem
  · have hemem : e ∈ stPre.openSet :=
      (popMin_spec hp).1.mem_iff.mpr (List.mem_cons_self _ _)
    obtain ⟨heg, hef⟩ := hpre.ns e hemem
    rw [hgoalc] at heg
    by_cases hsg : start = goal
    · -- start = goal: the single-cell short-circuit after the loop
      subst hsg
      refine ⟨[start], stF.expansions, ?_, aislePath_singleton hsb hsc, ?_⟩
      · unfold a_star_search
        rw [hrow]
        simp only [Option.bind_eq_bind, Option.some_bind]
        rw [hres]
        simp only [Option.some_bind]
        rw [hloopF]
        simp only [Option.some_bind]
        have hcond1 : ¬ (lookupPos stF.cameFrom start = none ∧ ¬ True) :=
          fun hcc => hcc.2 trivial
        rw [if_neg hcond1, if_pos trivial]
        rfl
      · intro q hq
        have hqne : q ≠ [] := by
          intro h
          rw [h] at hq
          cases hq.1
        have hqpos := List.length_pos.mpr hqne
        simpa using hqpos
    · have hgs : goal ≠ start := fun h => hsg h.symm
      obtain ⟨ec, hecmem, hecf⟩ := cover_open hpre hgnpPre pim start 0
        hpim.1 hpim.2.1 hpim.2.2.1 hpim.2.2.2 hpre.startG
      have hfle : e.1 ≤ ec.1 := by
        have hnlt := (popMin_spec hp).2 ec hecmem
        unfold keyLt at hnlt
        omega
      have hfg : e.1 = e.2.1 := by
        rcases hef with h | h
        · rw [h, hgoalc, manhattan_self]
          omega
        · exact absurd (by rw [h] at hgoalc; simpa using hgoalc) hsg
      have hL1 : L + 1 ≤ e.2.1 + 1 := by
        obtain ⟨s0, _, hs0len, hs0path⟩ := recon_path hpre hsb hsc hbin
          e.2.1 goal heg (e.2.1 + 1) (by omega) []
        have hq := hmin _ hs0path
        have hlen : ((s0 ++ [start]).reverse).length = e.2.1 + 1 := by
          simp [hs0len]
        rw [hlen] at hq
        exact hq
      have hgL : e.2.1 = L := by
        have h1 : pim.length = L + 1 := hpimlen
        omega
      subst hstF
      obtain ⟨pp, hcfg, _, _, _⟩ := hpre.cf goal e.2.1 heg hgs
      have hL' : lookupPos stPre.gCost goal = some L := by rw [heg, hgL]
      have hbundleF := (popStep_ninv hpre hp).1
      obtain ⟨s, hrecon, hslen, hspath⟩ := recon_path hbundleF hsb hsc hbin
        L goal (by exact hL') fuel (by omega) []
      have hcond : ¬ (lookupPos stPre.cameFrom goal = none ∧
          ¬ start = goal) := by
        intro hcc
        obtain ⟨h1, _⟩ := hcc
        rw [hcfg] at h1
        cases h1
      refine ⟨(s ++ [start]).reverse, stPre.expansions + 1, ?_, hspath, ?_⟩
      · unfold a_star_search
        rw [hrow]
        simp only [Option.bind_eq_bind, Option.some_bind]
        rw [hres]
        simp only [Option.some_bind]
        rw [hloopF]
        simp only [Option.some_bind]
        rw [if_neg hcond, if_neg hsg]
        dsimp only at hrecon
        rw [hrecon]
        simp only [Option.bind_eq_bind, Option.some_bind]
        rfl
      · intro q hq
        have hq' := hmin q hq
        have hlen : ((s ++ [start]).reverse).length = L + 1 := by
          simp [hslen]
        rw [hlen]
        exact hq'

/-- C1 witness: the concrete 3x3 grid with a middle wall, start (0,0) and
goal (2,0) joined by the aisle path around the wall. -/
theorem c1_optimal_shortest_path_witness :
    ∃ N, ∀ fuel, N ≤ fuel →
      ∃ p ex, a_star_search fuel [[0, 1, 0], [0, 1, 0], [0, 0, 0]]
            ((0 : Int), (0 : Int)) (2, 0)
          = some ⟨some p, some (p.length - 1), ex⟩ ∧
        AislePath [[0, 1, 0], [0, 1, 0], [0, 0, 0]] 3 3 (0, 0) (2, 0) p ∧
        ∀ q, AislePath [[0, 1, 0], [0, 1, 0], [0, 0, 0]] 3 3 (0, 0) (2, 0) q →
          p.length ≤ q.length :=
  c1_optimal_shortest_path [[0, 1, 0], [0, 1, 0], [0, 0, 0]] [0, 1, 0]
    (0, 0) (2, 0)
    [(0, 0), (0, 1), (0, 2), (1, 2), (2, 2), (2, 1), (2, 0)]
    rfl (by decide) (by decide)
    ⟨rfl, rfl, by simp [List.chain'_cons, manhattan], by decide⟩

end Warehouse

